import Mathlib

/-!
Shallow embedding of the backtesting engine of
`src/data/python/backtest-executor.py`.

Prices, cash and amounts are modelled as exact rationals (the Python code
computes with IEEE floats), trading dates as natural numbers, Python
exceptions as `Except String`, and Python dictionaries as
insertion-ordered association lists (which is what CPython dictionaries
are).  The risk ratios built from floating-point square roots
(`sharpeRatio`, `sortinoRatio`) and the slippage block are not
representable over the rationals and are left out of the metrics record;
no claim refers to them.
-/

namespace StockViewer

/-- Truncation toward zero: the semantics of Python `int()` applied to a
number. -/
def pyInt (x : Rat) : Int := if 0 ≤ x then ⌊x⌋ else ⌈x⌉

/-- First-match association-list lookup, the model of reading a Python
dictionary (keys are unique in every dictionary the engine builds). -/
def alookup {κ β : Type} [DecidableEq κ] : List (κ × β) → κ → Option β
  | [], _ => none
  | p :: ps, k => if p.1 = k then some p.2 else alookup ps k

/-- Python `d[k] = v`: overwrite the entry in place when the key is
present (preserving insertion order), append it otherwise. -/
def aset {κ β : Type} [DecidableEq κ] (d : List (κ × β)) (k : κ) (v : β) : List (κ × β) :=
  if (alookup d k).isSome then d.map (fun p => if p.1 = k then (k, v) else p)
  else d ++ [(k, v)]

/-- Python `d.get(k, dflt)`. -/
def aget {κ β : Type} [DecidableEq κ] (d : List (κ × β)) (k : κ) (dflt : β) : β :=
  (alookup d k).getD dflt

/-- Appending a signal to the per-key bucket of a scheduling dictionary,
the model of `if key not in d: d[key] = []` followed by
`d[key].append(s)`. -/
def addToGroup {κ σ : Type} [DecidableEq κ] (g : List (κ × List σ)) (k : κ) (s : σ) :
    List (κ × List σ) :=
  match alookup g k with
  | some l => aset g k (l ++ [s])
  | none => g ++ [(k, [s])]

/-- Reading a bucket of a scheduling dictionary; a missing key means an
empty batch. -/
def lookupGroup {κ σ : Type} [DecidableEq κ] (g : List (κ × List σ)) (k : κ) : List σ :=
  (alookup g k).getD []

/-- One daily OHLC bar; the opening price is called `open_` because
`open` is a reserved word in Lean. -/
structure Bar where
  date : Nat
  open_ : Rat
  high : Rat
  low : Rat
  close : Rat
deriving DecidableEq, Repr

/-- Signal kind: `v` sizes by notional currency amount, `a` by share
count (the `type` field of a Python signal dictionary). -/
inductive SigType
  | v
  | a
deriving DecidableEq, Repr

/-- Execution timing of a signal: at the signal day's close or at the
next trading day's open (the `execution` field, defaulting to close). -/
inductive ExecMode
  | close
  | next_open
deriving DecidableEq, Repr

/-- A validated single-symbol trading signal. -/
structure Signal where
  date : Nat
  type : SigType
  amount : Rat
  execution : ExecMode
deriving DecidableEq, Repr

/-- A validated portfolio trading signal (carries the target symbol). -/
structure PSignal where
  date : Nat
  symbol : String
  type : SigType
  amount : Rat
  execution : ExecMode
deriving DecidableEq, Repr

/-- Trade side. -/
inductive Side
  | buy
  | sell
deriving DecidableEq, Repr

/-- One recorded fill, mirroring the trade dictionaries appended by both
`manual_backtest` and `portfolio_backtest` (the redundant Python `date`
key merely repeats `execution_date`; single-symbol trades carry no
symbol, modelled by the empty string). -/
structure Trade where
  signal_date : Nat
  execution_date : Nat
  symbol : String
  type : Side
  price : Rat
  signal_price : Rat
  size : Int
  value : Rat
  commission : Rat
  execution_mode : ExecMode
deriving DecidableEq, Repr

/-- Portfolio constraints dictionary: `maxPositions` and `reserveCash`
(a percentage of initial capital); a missing key is `none`, and the code
treats a present value of `0` as absent (Python truthiness). -/
structure Constraints where
  maxPositions : Option Int
  reserveCash : Option Rat
deriving DecidableEq, Repr

/-! ## Metrics (`calculate_metrics_from_data`) -/

/-- FIFO win/loss pairing of `calculate_metrics_from_data`: walk the
trade ledger once, pushing every buy price onto a single global queue and
matching every sell against `buy_prices.pop(0)`; a sell arriving while
the queue is empty is dropped.  Produces the `sell_prices` list of
(sell price, matched buy price) pairs in encounter order. -/
def pairTrades : List Trade → List Rat → List (Rat × Rat)
  | [], _ => []
  | t :: rest, buy_prices =>
    match t.type with
    | Side.buy => pairTrades rest (buy_prices ++ [t.price])
    | Side.sell =>
      match buy_prices with
      | [] => pairTrades rest []
      | b :: bs => (t.price, b) :: pairTrades rest bs

/-- Running-peak drawdown fold of `calculate_metrics_from_data`: state is
(peak, max drawdown, max drawdown pct), peak starts at the initial cash. -/
def drawdownFold (initial_cash : Rat) (values : List Rat) : Rat × Rat :=
  let r := values.foldl
    (fun (acc : Rat × Rat × Rat) value =>
      let peak := if value > acc.1 then value else acc.1
      let drawdown := peak - value
      let drawdown_pct := if peak > 0 then drawdown / peak * 100 else 0
      if drawdown_pct > acc.2.2 then (peak, drawdown, drawdown_pct)
      else (peak, acc.2.1, acc.2.2))
    (initial_cash, 0, 0)
  (r.2.1, r.2.2)

/-- The exactly-representable part of the metrics dictionary returned by
`calculate_metrics_from_data`.  `profitFactor` is `⊤` for Python
`float(Inf)`. -/
structure Metrics where
  totalReturn : Rat
  totalReturnPct : Rat
  finalValue : Rat
  initialValue : Rat
  maxDrawdown : Rat
  maxDrawdownPct : Rat
  calmarRatio : Rat
  winRate : Rat
  avgWin : Rat
  avgLoss : Rat
  profitFactor : WithTop Rat
  tradeCount : Nat
  wonTrades : Nat
  lostTrades : Nat
deriving DecidableEq, Repr

/-- Embedding of `calculate_metrics_from_data`.  `values` is the list of
the `value` fields of the equity-curve points, in order (so its length is
the length of the equity curve); an equity curve with fewer than two
points yields `none`, the model of the empty dictionary `{}` returned by
the Python code. -/
def calculate_metrics_from_data (values : List Rat) (trades : List Trade)
    (initial_cash : Rat) : Option Metrics :=
  if values.length < 2 then none
  else
    let final_value := (values.getLast?).getD 0
    let total_return := final_value - initial_cash
    let total_return_pct := if initial_cash > 0 then total_return / initial_cash * 100 else 0
    let dd := drawdownFold initial_cash values
    let max_drawdown := dd.1
    let max_drawdown_pct := dd.2
    let stats :=
      if trades ≠ [] then
        let sell_prices := pairTrades trades []
        let wins := (sell_prices.filter (fun p => p.1 > p.2)).map (fun p => p.1 - p.2)
        let losses := (sell_prices.filter (fun p => p.1 ≤ p.2)).map (fun p => p.1 - p.2)
        let total_trades := sell_prices.length
        let won_trades := wins.length
        let lost_trades := losses.length
        let win_rate :=
          if total_trades > 0 then (won_trades : Rat) / (total_trades : Rat) * 100 else 0
        let avg_win := if wins ≠ [] then wins.sum / (wins.length : Rat) else 0
        let avg_loss := if losses ≠ [] then |losses.sum / (losses.length : Rat)| else 0
        let total_won_pnl := wins.sum
        let total_lost_pnl := |losses.sum|
        let profit_factor : WithTop Rat :=
          if total_lost_pnl > 0 then ((total_won_pnl / total_lost_pnl : Rat) : WithTop Rat)
          else if total_won_pnl > 0 then ⊤ else ((0 : Rat) : WithTop Rat)
        (total_trades, won_trades, lost_trades, win_rate, avg_win, avg_loss, profit_factor)
      else (0, 0, 0, 0, 0, 0, ((0 : Rat) : WithTop Rat))
    let annual_return :=
      if values.length > 0 then total_return_pct * (252 / (values.length : Rat)) else 0
    let calmar_ratio := if max_drawdown_pct > 0 then annual_return / max_drawdown_pct else 0
    some
      { totalReturn := total_return
        totalReturnPct := total_return_pct
        finalValue := final_value
        initialValue := initial_cash
        maxDrawdown := max_drawdown
        maxDrawdownPct := max_drawdown_pct
        calmarRatio := calmar_ratio
        winRate := stats.2.2.2.1
        avgWin := stats.2.2.2.2.1
        avgLoss := stats.2.2.2.2.2.1
        profitFactor := stats.2.2.2.2.2.2
        tradeCount := stats.1
        wonTrades := stats.2.1
        lostTrades := stats.2.2.1 }

/-! ## Single-symbol mode (`manual_backtest`) -/

/-- Mutable state of `manual_backtest`: cash, the single share position
and the grown trade ledger. -/
structure MState where
  cash : Rat
  shares : Int
  trades : List Trade
deriving DecidableEq, Repr

/-- Error text for an invalid close price (`manual_backtest`). -/
def errInvalidClose : String := "DATA ERROR: invalid close price"

/-- Error text for an invalid open price (`manual_backtest`). -/
def errInvalidOpen : String := "DATA ERROR: invalid open price"

/-- Embedding of the nested `execute_trade` helper of `manual_backtest`:
turn one signal plus one quoted price into at most one fill, mutating
cash / shares / trades. -/
def execute_trade (commission : Rat) (sig : Signal) (execution_date : Nat)
    (execution_price : Rat) (signal_date : Nat) (signal_price : Rat)
    (execution_mode : ExecMode) (st : MState) : MState :=
  let amount := sig.amount
  if amount = 0 then st
  else
    match sig.type with
    | SigType.v =>
      if amount > 0 then
        let shares_to_buy := pyInt (amount / execution_price)
        let cost := (shares_to_buy : Rat) * execution_price
        let total_cost := cost * (1 + commission)
        if total_cost ≤ st.cash ∧ shares_to_buy > 0 then
          { cash := st.cash - total_cost
            shares := st.shares + shares_to_buy
            trades := st.trades ++
              [{ signal_date := signal_date, execution_date := execution_date,
                 symbol := "", type := Side.buy, price := execution_price,
                 signal_price := signal_price, size := shares_to_buy,
                 value := cost, commission := cost * commission,
                 execution_mode := execution_mode }] }
        else st
      else
        let shares_to_sell := min (pyInt (|amount| / execution_price)) st.shares
        let value := (shares_to_sell : Rat) * execution_price
        let proceeds := value * (1 - commission)
        if shares_to_sell > 0 then
          { cash := st.cash + proceeds
            shares := st.shares - shares_to_sell
            trades := st.trades ++
              [{ signal_date := signal_date, execution_date := execution_date,
                 symbol := "", type := Side.sell, price := execution_price,
                 signal_price := signal_price, size := shares_to_sell,
                 value := value, commission := value * commission,
                 execution_mode := execution_mode }] }
        else st
    | SigType.a =>
      if amount > 0 then
        let shares_to_buy := pyInt amount
        let cost := (shares_to_buy : Rat) * execution_price
        let total_cost := cost * (1 + commission)
        if total_cost ≤ st.cash ∧ shares_to_buy > 0 then
          { cash := st.cash - total_cost
            shares := st.shares + shares_to_buy
            trades := st.trades ++
              [{ signal_date := signal_date, execution_date := execution_date,
                 symbol := "", type := Side.buy, price := execution_price,
                 signal_price := signal_price, size := shares_to_buy,
                 value := cost, commission := cost * commission,
                 execution_mode := execution_mode }] }
        else st
      else
        let shares_to_sell := min (pyInt |amount|) st.shares
        let value := (shares_to_sell : Rat) * execution_price
        let proceeds := value * (1 - commission)
        if shares_to_sell > 0 then
          { cash := st.cash + proceeds
            shares := st.shares - shares_to_sell
            trades := st.trades ++
              [{ signal_date := signal_date, execution_date := execution_date,
                 symbol := "", type := Side.sell, price := execution_price,
                 signal_price := signal_price, size := shares_to_sell,
                 value := value, commission := value * commission,
                 execution_mode := execution_mode }] }
        else st

/-- The signal-bucketing pass at the top of `manual_backtest`: build the
`same_day_signals` and `next_day_signals` dictionaries, keyed by date,
preserving input order inside each bucket. -/
def groupSignals (signals : List Signal) :
    List (Nat × List Signal) × List (Nat × List Signal) :=
  signals.foldl
    (fun acc s =>
      match s.execution with
      | ExecMode.close => (addToGroup acc.1 s.date s, acc.2)
      | ExecMode.next_open => (acc.1, addToGroup acc.2 s.date s))
    ([], [])

/-- One point of the single-symbol equity curve. -/
structure EquityPoint where
  date : Nat
  value : Rat
  cash : Rat
  shares : Int
  stock_value : Rat
deriving DecidableEq, Repr

/-- The day loop of `manual_backtest`: validate the bar's prices, execute
the previous day's next-open signals at today's open, execute today's
same-day signals at today's close, append the daily snapshot, and carry
(previous date, previous close) forward. -/
def manualLoop (commission : Rat) (same_day next_day : List (Nat × List Signal)) :
    List Bar → MState → Option (Nat × Rat) → List EquityPoint →
    Except String (MState × Option (Nat × Rat) × List EquityPoint)
  | [], st, prev, eq => Except.ok (st, prev, eq)
  | bar :: rest, st, prev, eq =>
    if bar.close ≤ 0 then Except.error errInvalidClose
    else if bar.open_ ≤ 0 then Except.error errInvalidOpen
    else
      let st1 :=
        match prev with
        | some pv =>
          (lookupGroup next_day pv.1).foldl
            (fun s sig =>
              execute_trade commission sig bar.date bar.open_ pv.1 pv.2
                ExecMode.next_open s)
            st
        | none => st
      let st2 :=
        (lookupGroup same_day bar.date).foldl
          (fun s sig =>
            execute_trade commission sig bar.date bar.close bar.date bar.close
              ExecMode.close s)
          st1
      let portfolio_value := st2.cash + (st2.shares : Rat) * bar.close
      manualLoop commission same_day next_day rest st2 (some (bar.date, bar.close))
        (eq ++ [{ date := bar.date, value := portfolio_value, cash := st2.cash,
                  shares := st2.shares,
                  stock_value := (st2.shares : Rat) * bar.close }])

/-- Result dictionary of `manual_backtest` (`trades`, `equityCurve`,
`metrics`). -/
structure ManualResult where
  trades : List Trade
  equityCurve : List EquityPoint
  metrics : Option Metrics
deriving DecidableEq, Repr

/-- Embedding of `manual_backtest`.  The extra `Nat` alongside the result
models the stderr diagnostic printed after the day loop: the number of
next-open signals keyed to the last processed date, which are skipped
(the warning is only printed when this is nonzero; the returned
dictionary itself has no such field). -/
def manual_backtest (df : List Bar) (signals : List Signal)
    (initial_cash commission : Rat) : Except String (ManualResult × Nat) :=
  let groups := groupSignals signals
  match manualLoop commission groups.1 groups.2 df
      { cash := initial_cash, shares := 0, trades := [] } none [] with
  | Except.error e => Except.error e
  | Except.ok r =>
    let skipped :=
      match r.2.1 with
      | some pv => (lookupGroup groups.2 pv.1).length
      | none => 0
    Except.ok
      ({ trades := r.1.trades
         equityCurve := r.2.2
         metrics := calculate_metrics_from_data (r.2.2.map (fun p => p.value))
           r.1.trades initial_cash }, skipped)

/-! ## Portfolio mode (`portfolio_backtest`) -/

/-- Mutable state of `portfolio_backtest`: shared cash, the per-symbol
position dictionary and the trade ledger. -/
structure PState where
  cash : Rat
  positions : List (String × Int)
  trades : List Trade
deriving DecidableEq, Repr

/-- Error text for an invalid open price during next-open execution. -/
def errPOpen : String := "DATA ERROR: invalid open price for execution"

/-- Error text for an invalid close price during same-day execution. -/
def errPClose : String := "DATA ERROR: invalid close price for execution"

/-- Error text of the unreachable negative-position branch of the sell
path. -/
def errSell : String := "Sell Error: attempting to sell more shares than held"

/-- Error text for a negative share count found during valuation. -/
def errNegShares : String := "Position Error: negative shares"

/-- Error text for an invalid close price used to value a position. -/
def errPValuationPrice : String := "DATA ERROR: invalid price for valuation"

/-- Error text for a negative position value (mathematically impossible). -/
def errValueNeg : String := "Value Error: negative calculated value"

/-- Error text modelling the Python KeyError raised by `data_map[symbol]`
for a symbol absent from the data map. -/
def errKey : String := "KeyError: symbol not in data_map"

/-- Error text for negative cash at the end-of-day validation. -/
def errNegativeCash : String := "Validation Error: cash is negative"

/-- Error text for a negative stock value at the end-of-day validation. -/
def errNegativeStockValue : String := "Validation Error: stock value is negative"

/-- Error text for an equity-reconciliation mismatch beyond tolerance. -/
def errReconcile : String := "Validation Error: portfolio value mismatch"

/-- Model of `if constraints.get(k)` for the `maxPositions` key: a
missing key and a zero value are both falsy. -/
def truthyMax (c : Constraints) : Bool :=
  match c.maxPositions with
  | some m => decide (m ≠ 0)
  | none => false

/-- Model of `if constraints.get(k)` for the `reserveCash` key. -/
def truthyReserve (c : Constraints) : Bool :=
  match c.reserveCash with
  | some r => decide (r ≠ 0)
  | none => false

/-- The `maxPositions` gate of the buy paths: when the constraint is
truthy and the symbol is a new position, block the buy if the number of
symbols currently holding shares has reached the cap. -/
def maxPositionsBlocks (c : Constraints) (positions : List (String × Int))
    (symbol : String) (current_position_count : Nat) : Bool :=
  truthyMax c &&
    ((alookup positions symbol).isNone || aget positions symbol 0 == 0) &&
    decide ((c.maxPositions.getD 0) ≤ (current_position_count : Int))

/-- The reserve-cash pre-check of the notional buy path: block when cash
is already below the floor. -/
def reservePrecheckBlocks (c : Constraints) (initial_cash cash : Rat) : Bool :=
  truthyReserve c && decide (cash < initial_cash * (c.reserveCash.getD 0 / 100))

/-- The reserve-cash shrink step of the buy paths: when the projected
cash after the full-size buy would fall below the floor, recompute the
share count from the cash available above the floor; `none` models the
early return for non-positive available cash. -/
def adjustForReserve (c : Constraints) (initial_cash commission execution_price : Rat)
    (cash : Rat) (shares_to_buy : Int) : Option Int :=
  if truthyReserve c then
    let min_cash := initial_cash * (c.reserveCash.getD 0 / 100)
    if cash - ((shares_to_buy : Rat) * execution_price) * (1 + commission) < min_cash then
      let available := cash - min_cash
      if available ≤ 0 then none
      else some (pyInt (available / (execution_price * (1 + commission))))
    else some shares_to_buy
  else some shares_to_buy

/-- Final settlement of a (possibly shrunk) buy: recompute cost and total
cost, and fill only when the total cost fits in cash and the size is
positive. -/
def settleBuy (commission : Rat) (symbol : String) (execution_date : Nat)
    (execution_price : Rat) (signal_date : Nat) (signal_price : Rat)
    (execution_mode : ExecMode) (st : PState) (shares_to_buy : Int) : PState :=
  let cost := (shares_to_buy : Rat) * execution_price
  let total_cost := cost * (1 + commission)
  if total_cost ≤ st.cash ∧ shares_to_buy > 0 then
    { cash := st.cash - total_cost
      positions := aset st.positions symbol (aget st.positions symbol 0 + shares_to_buy)
      trades := st.trades ++
        [{ signal_date := signal_date, execution_date := execution_date,
           symbol := symbol, type := Side.buy, price := execution_price,
           signal_price := signal_price, size := shares_to_buy,
           value := cost, commission := cost * commission,
           execution_mode := execution_mode }] }
  else st

/-- Settlement of a sell capped at the currently held shares, including
the (unreachable) fatal branch for a negative resulting position. -/
def settleSell (commission : Rat) (symbol : String) (execution_date : Nat)
    (execution_price : Rat) (signal_date : Nat) (signal_price : Rat)
    (execution_mode : ExecMode) (st : PState) (requested : Int) :
    Except String PState :=
  let current_shares := aget st.positions symbol 0
  let shares_to_sell := min requested current_shares
  let value := (shares_to_sell : Rat) * execution_price
  let proceeds := value * (1 - commission)
  if shares_to_sell > 0 then
    let new_position := current_shares - shares_to_sell
    if new_position < 0 then Except.error errSell
    else
      Except.ok
        { cash := st.cash + proceeds
          positions := aset st.positions symbol new_position
          trades := st.trades ++
            [{ signal_date := signal_date, execution_date := execution_date,
               symbol := symbol, type := Side.sell, price := execution_price,
               signal_price := signal_price, size := shares_to_sell,
               value := value, commission := value * commission,
               execution_mode := execution_mode }] }
  else Except.ok st

/-- Embedding of the nested `execute_trade` helper of
`portfolio_backtest`: sizing plus constraint enforcement over the shared
portfolio state. -/
def p_execute_trade (initial_cash commission : Rat) (constraints : Constraints)
    (sig : PSignal) (symbol : String) (execution_date : Nat) (execution_price : Rat)
    (signal_date : Nat) (signal_price : Rat) (execution_mode : ExecMode)
    (st : PState) : Except String PState :=
  let amount := sig.amount
  if amount = 0 then Except.ok st
  else
    let current_position_count := (st.positions.filter (fun p => 0 < p.2)).length
    match sig.type with
    | SigType.v =>
      if amount > 0 then
        if maxPositionsBlocks constraints st.positions symbol current_position_count then
          Except.ok st
        else if reservePrecheckBlocks constraints initial_cash st.cash then Except.ok st
        else
          let shares_to_buy := pyInt (amount / execution_price)
          match adjustForReserve constraints initial_cash commission execution_price
              st.cash shares_to_buy with
          | none => Except.ok st
          | some n =>
            Except.ok (settleBuy commission symbol execution_date execution_price
              signal_date signal_price execution_mode st n)
      else
        settleSell commission symbol execution_date execution_price signal_date
          signal_price execution_mode st (pyInt (|amount| / execution_price))
    | SigType.a =>
      if amount > 0 then
        if maxPositionsBlocks constraints st.positions symbol current_position_count then
          Except.ok st
        else
          let shares_to_buy := pyInt |amount|
          match adjustForReserve constraints initial_cash commission execution_price
              st.cash shares_to_buy with
          | none => Except.ok st
          | some n =>
            Except.ok (settleBuy commission symbol execution_date execution_price
              signal_date signal_price execution_mode st n)
      else
        settleSell commission symbol execution_date execution_price signal_date
          signal_price execution_mode st (pyInt |amount|)

/-- The signal-bucketing pass of `portfolio_backtest`: signals for
symbols absent from the data map are dropped with a warning; the rest
are grouped by (date, symbol) into the same-day and next-day
dictionaries, preserving input order inside each bucket.  (Every
embedded signal carries a symbol, so the missing-symbol warning branch
has no counterpart here.) -/
def groupPSignals (dm : List (String × List Bar)) (signals : List PSignal) :
    List ((Nat × String) × List PSignal) × List ((Nat × String) × List PSignal) :=
  signals.foldl
    (fun acc s =>
      if (alookup dm s.symbol).isNone then acc
      else
        match s.execution with
        | ExecMode.close => (addToGroup acc.1 (s.date, s.symbol) s, acc.2)
        | ExecMode.next_open => (acc.1, addToGroup acc.2 (s.date, s.symbol) s))
    ([], [])

/-- Insertion into a strictly-sorted list of dates without duplicates,
used to model `sorted(set(...))`. -/
def insertSortedU (d : Nat) : List Nat → List Nat
  | [] => [d]
  | x :: xs => if d < x then d :: x :: xs else if d = x then x :: xs else x :: insertSortedU d xs

/-- The master calendar of `portfolio_backtest`: the sorted union of all
symbols' bar dates. -/
def allDates (dm : List (String × List Bar)) : List Nat :=
  dm.foldl (fun acc p => p.2.foldl (fun a b => insertSortedU b.date a) acc) []

/-- Error-propagating left fold, the model of a Python `for` loop whose
body may raise. -/
def efold {α β : Type} (f : β → α → Except String β) : β → List α → Except String β
  | b, [] => Except.ok b
  | b, a :: as =>
    match f b a with
    | Except.error e => Except.error e
    | Except.ok b2 => efold f b2 as

/-- Step (1) of a portfolio day: for each symbol in data-map order,
execute the next-open signals keyed to the previous date at today's open,
using the symbol's previous-day close as reference price when that bar
exists and today's open otherwise. -/
def execNextDayAll (initial_cash commission : Rat) (constraints : Constraints)
    (next_day : List ((Nat × String) × List PSignal)) (pd current_date : Nat) :
    List (String × List Bar) → PState → Except String PState
  | [], st => Except.ok st
  | (symbol, df) :: rest, st =>
    match alookup next_day (pd, symbol) with
    | none =>
      execNextDayAll initial_cash commission constraints next_day pd current_date rest st
    | some batch =>
      match df.find? (fun b => b.date == current_date) with
      | none =>
        execNextDayAll initial_cash commission constraints next_day pd current_date rest st
      | some row =>
        let execution_price := row.open_
        if execution_price ≤ 0 then Except.error errPOpen
        else
          let signal_price :=
            match df.find? (fun b => b.date == pd) with
            | some prow => prow.close
            | none => execution_price
          match efold
              (fun s sig =>
                p_execute_trade initial_cash commission constraints sig symbol
                  current_date execution_price pd signal_price ExecMode.next_open s)
              st batch with
          | Except.error e => Except.error e
          | Except.ok st2 =>
            execNextDayAll initial_cash commission constraints next_day pd current_date rest st2

/-- Step (2) of a portfolio day: for each symbol in data-map order,
execute the same-day signals keyed to today at today's close. -/
def execSameDayAll (initial_cash commission : Rat) (constraints : Constraints)
    (same_day : List ((Nat × String) × List PSignal)) (current_date : Nat) :
    List (String × List Bar) → PState → Except String PState
  | [], st => Except.ok st
  | (symbol, df) :: rest, st =>
    match alookup same_day (current_date, symbol) with
    | none => execSameDayAll initial_cash commission constraints same_day current_date rest st
    | some batch =>
      match df.find? (fun b => b.date == current_date) with
      | none =>
        execSameDayAll initial_cash commission constraints same_day current_date rest st
      | some row =>
        let execution_price := row.close
        if execution_price ≤ 0 then Except.error errPClose
        else
          match efold
              (fun s sig =>
                p_execute_trade initial_cash commission constraints sig symbol
                  current_date execution_price current_date execution_price
                  ExecMode.close s)
              st batch with
          | Except.error e => Except.error e
          | Except.ok st2 =>
            execSameDayAll initial_cash commission constraints same_day current_date rest st2

/-- Step (3a) of a portfolio day: walk the position dictionary in
insertion order, abort on a negative share count, value every held
position at today's close when a bar exists (abort on a non-positive
close or a negative value), and otherwise fall back to the most recent
prior close — clamping it to zero with a stderr warning when that close
is non-positive, and to zero when no prior bar exists at all.
Accumulates the portfolio value (started at cash) and the per-symbol
stock values. -/
def valuePositions (dm : List (String × List Bar)) (current_date : Nat) :
    List (String × Int) → Rat → List (String × Rat) →
    Except String (Rat × List (String × Rat))
  | [], pv, sv => Except.ok (pv, sv)
  | (symbol, shares) :: rest, pv, sv =>
    if shares < 0 then Except.error errNegShares
    else if shares > 0 then
      match alookup dm symbol with
      | none => Except.error errKey
      | some df =>
        match df.find? (fun b => b.date == current_date) with
        | some row =>
          let price := row.close
          if price ≤ 0 then Except.error errPValuationPrice
          else
            let value := (shares : Rat) * price
            if value < 0 then Except.error errValueNeg
            else valuePositions dm current_date rest (pv + value) (aset sv symbol value)
        | none =>
          match df.filter (fun b => b.date < current_date) with
          | [] => valuePositions dm current_date rest pv (aset sv symbol 0)
          | p :: ps =>
            let last_row := ps.foldl (fun best b => if b.date > best.date then b else best) p
            let last_price := last_row.close
            if last_price ≤ 0 then
              valuePositions dm current_date rest pv (aset sv symbol 0)
            else
              let value := (shares : Rat) * last_price
              valuePositions dm current_date rest (pv + value) (aset sv symbol value)
    else valuePositions dm current_date rest pv sv

/-- Step (3b): ensure every symbol that has a bar today appears in the
stock-value dictionary, with value zero if it was not set. -/
def zeroFill (dm : List (String × List Bar)) (current_date : Nat)
    (sv : List (String × Rat)) : List (String × Rat) :=
  dm.foldl
    (fun sv p =>
      if p.2.any (fun b => b.date == current_date) then
        if (alookup sv p.1).isSome then sv else sv ++ [(p.1, 0)]
      else sv)
    sv

/-- One point of the portfolio equity curve (`date`, `value`, `cash`, a
copy of the position dictionary, and the per-symbol stock values). -/
structure PEquityPoint where
  date : Nat
  value : Rat
  cash : Rat
  positions : List (String × Int)
  stock_values : List (String × Rat)
deriving DecidableEq, Repr

/-- One full day of `portfolio_backtest`: next-open executions, same-day
executions, valuation with fallback, zero-fill, the daily snapshot, and
the end-of-day validations (negative cash, negative stock value,
reconciliation beyond 0.01). -/
def pDay (dm : List (String × List Bar)) (initial_cash commission : Rat)
    (constraints : Constraints)
    (same_day next_day : List ((Nat × String) × List PSignal))
    (prev : Option Nat) (current_date : Nat) (st : PState) :
    Except String (PState × PEquityPoint) :=
  let step1 : Except String PState :=
    match prev with
    | some pd =>
      execNextDayAll initial_cash commission constraints next_day pd current_date dm st
    | none => Except.ok st
  match step1 with
  | Except.error e => Except.error e
  | Except.ok st1 =>
    match execSameDayAll initial_cash commission constraints same_day current_date dm st1 with
    | Except.error e => Except.error e
    | Except.ok st2 =>
      match valuePositions dm current_date st2.positions st2.cash [] with
      | Except.error e => Except.error e
      | Except.ok pvsv =>
        let stock_values := zeroFill dm current_date pvsv.2
        let portfolio_value := pvsv.1
        let pt : PEquityPoint :=
          { date := current_date, value := portfolio_value, cash := st2.cash,
            positions := st2.positions, stock_values := stock_values }
        if st2.cash < 0 then Except.error errNegativeCash
        else if stock_values.any (fun p => p.2 < 0) then Except.error errNegativeStockValue
        else if |st2.cash + (stock_values.map (fun p => p.2)).sum - portfolio_value| > 1 / 100
          then Except.error errReconcile
        else Except.ok (st2, pt)

/-- The day loop of `portfolio_backtest` over the master calendar. -/
def pLoop (dm : List (String × List Bar)) (initial_cash commission : Rat)
    (constraints : Constraints)
    (same_day next_day : List ((Nat × String) × List PSignal)) :
    List Nat → Option Nat → PState → List PEquityPoint →
    Except String (PState × List PEquityPoint)
  | [], _, st, eq => Except.ok (st, eq)
  | d :: ds, prev, st, eq =>
    match pDay dm initial_cash commission constraints same_day next_day prev d st with
    | Except.error e => Except.error e
    | Except.ok r =>
      pLoop dm initial_cash commission constraints same_day next_day ds (some d) r.1
        (eq ++ [r.2])

/-- Result of `portfolio_backtest` restricted to the components the
engine claims speak about: the trade ledger, the equity curve and the
portfolio metrics.  The reporting extras of the returned dictionary
(`positionSnapshots`, `perSymbolMetrics`, `perSymbolEquityCurves`,
`symbols`) are derived read-only views and are not modelled. -/
structure PResult where
  trades : List Trade
  equityCurve : List PEquityPoint
  metrics : Option Metrics
deriving DecidableEq, Repr

/-- Embedding of `portfolio_backtest`. -/
def portfolio_backtest (dm : List (String × List Bar)) (signals : List PSignal)
    (initial_cash commission : Rat) (constraints : Constraints) :
    Except String PResult :=
  let groups := groupPSignals dm signals
  match pLoop dm initial_cash commission constraints groups.1 groups.2 (allDates dm)
      none { cash := initial_cash, positions := [], trades := [] } [] with
  | Except.error e => Except.error e
  | Except.ok r =>
    Except.ok
      { trades := r.1.trades
        equityCurve := r.2
        metrics := calculate_metrics_from_data (r.2.map (fun p => p.value))
          r.1.trades initial_cash }

/-- The keys of the JSON object printed for a successful single-stock
run (`main`, the `output` dictionary of the single-stock branch). -/
def manualOutputKeys : List String :=
  ["success", "metrics", "equityCurve", "tradeMarkers"]

/-- The keys of the JSON object printed for a successful portfolio run
(`main`, the `output` dictionary of the portfolio branch). -/
def portfolioOutputKeys : List String :=
  ["success", "type", "metrics", "equityCurve", "tradeMarkers", "positionSnapshots",
   "perSymbolMetrics", "perSymbolEquityCurves", "symbols", "constraints"]

/-! ## Dictionary and scheduler lemmas -/

theorem alookup_append {κ β : Type} [DecidableEq κ] (d1 d2 : List (κ × β)) (k : κ) :
    alookup (d1 ++ d2) k =
      match alookup d1 k with
      | some v => some v
      | none => alookup d2 k := by
  induction d1 with
  | nil => simp [alookup]
  | cons p ps ih =>
    by_cases h : p.1 = k <;> simp [alookup, h, ih]

theorem alookup_setmap {κ β : Type} [DecidableEq κ] (g : List (κ × β)) (k : κ) (v : β)
    (k' : κ) :
    alookup (g.map (fun p => if p.1 = k then (k, v) else p)) k' =
      if k' = k then (alookup g k).map (fun _ => v) else alookup g k' := by
  induction g with
  | nil => simp [alookup]
  | cons p ps ih =>
    by_cases hpk : p.1 = k
    · by_cases hk : k' = k
      · simp [alookup, hpk, hk, ih]
      · have h1 : ¬ k = k' := fun h => hk h.symm
        have h2 : ¬ p.1 = k' := fun h => hk (hpk.symm.trans h).symm
        simp only [List.map_cons, if_pos hpk, alookup, if_neg h1, if_neg h2, ih, if_neg hk]
    · by_cases hpk' : p.1 = k'
      · simp [alookup, hpk, hpk', if_neg (fun h : k' = k => hpk (hpk' ▸ h))]
      · simp [alookup, hpk, hpk', ih]

theorem lookupGroup_addToGroup {κ σ : Type} [DecidableEq κ] (g : List (κ × List σ))
    (k : κ) (s : σ) (k' : κ) :
    lookupGroup (addToGroup g k s) k' =
      lookupGroup g k' ++ (if k' = k then [s] else []) := by
  unfold addToGroup
  cases h : alookup g k with
  | none =>
    unfold lookupGroup
    rw [alookup_append]
    by_cases hk : k' = k
    · subst hk; rw [h]; simp [alookup]
    · have h1 : ¬ k = k' := fun hh => hk hh.symm
      cases h2 : alookup g k' <;> simp [alookup, h2, hk, if_neg h1]
  | some l =>
    unfold aset
    rw [h]
    simp only [Option.isSome_some, if_pos]
    unfold lookupGroup
    rw [alookup_setmap]
    by_cases hk : k' = k
    · subst hk; rw [h]; simp
    · simp [hk]

theorem addToGroup_ne_nil {κ σ : Type} [DecidableEq κ] (g : List (κ × List σ)) (k : κ)
    (s : σ) (h : ∀ k' l, alookup g k' = some l → l ≠ []) :
    ∀ k' l, alookup (addToGroup g k s) k' = some l → l ≠ [] := by
  intro k' l hl
  unfold addToGroup at hl
  cases hg : alookup g k with
  | none =>
    rw [hg] at hl
    rw [alookup_append] at hl
    cases h2 : alookup g k' with
    | some l2 =>
      rw [h2] at hl
      simp only [] at hl
      injection hl with he
      exact he ▸ h k' l2 h2
    | none =>
      rw [h2] at hl
      simp only [alookup] at hl
      by_cases hk : k = k'
      · rw [if_pos hk] at hl
        cases hl
        simp
      · rw [if_neg hk] at hl
        exact Option.noConfusion hl
  | some l0 =>
    rw [hg] at hl
    unfold aset at hl
    rw [hg] at hl
    simp only [Option.isSome_some, if_true] at hl
    rw [alookup_setmap] at hl
    by_cases hk : k' = k
    · rw [if_pos hk, hg] at hl
      simp only [Option.map_some'] at hl
      cases hl
      simp
    · rw [if_neg hk] at hl
      exact h k' l hl

/-- Named form of the fold step of `groupSignals`. -/
def groupStep (acc : List (Nat × List Signal) × List (Nat × List Signal)) (s : Signal) :
    List (Nat × List Signal) × List (Nat × List Signal) :=
  match s.execution with
  | ExecMode.close => (addToGroup acc.1 s.date s, acc.2)
  | ExecMode.next_open => (acc.1, addToGroup acc.2 s.date s)

theorem groupSignals_eq_foldl (L : List Signal) :
    groupSignals L = L.foldl groupStep ([], []) := rfl

/-- The same-day batch for a date, read directly off the signal list in
input order (the specification-level view of the scheduler). -/
def specSameBatch (signals : List Signal) (d : Nat) : List Signal :=
  signals.filter (fun s => decide (s.date = d ∧ s.execution = ExecMode.close))

/-- The next-open batch for a date, read directly off the signal list in
input order. -/
def specNextBatch (signals : List Signal) (d : Nat) : List Signal :=
  signals.filter (fun s => decide (s.date = d ∧ s.execution = ExecMode.next_open))

theorem lookupGroup_groupStep_foldl (L : List Signal) :
    ∀ (acc : List (Nat × List Signal) × List (Nat × List Signal)) (d : Nat),
      lookupGroup (L.foldl groupStep acc).1 d =
          lookupGroup acc.1 d ++ specSameBatch L d ∧
      lookupGroup (L.foldl groupStep acc).2 d =
          lookupGroup acc.2 d ++ specNextBatch L d := by
  induction L with
  | nil => intro acc d; simp [specSameBatch, specNextBatch]
  | cons s L ih =>
    intro acc d
    simp only [List.foldl_cons]
    cases hexec : s.execution with
    | close =>
      have hstep : groupStep acc s = (addToGroup acc.1 s.date s, acc.2) := by
        simp [groupStep, hexec]
      rw [hstep]
      rcases ih (addToGroup acc.1 s.date s, acc.2) d with ⟨ih1, ih2⟩
      constructor
      · rw [ih1]
        simp only [lookupGroup_addToGroup]
        unfold specSameBatch
        rw [List.filter_cons]
        by_cases hd : s.date = d
        · simp [hd, hexec, specSameBatch]
        · simp [hd, hexec, specSameBatch]
          exact fun h => hd h.symm
      · rw [ih2]
        unfold specNextBatch
        rw [List.filter_cons]
        simp [hexec, specNextBatch]
    | next_open =>
      have hstep : groupStep acc s = (acc.1, addToGroup acc.2 s.date s) := by
        simp [groupStep, hexec]
      rw [hstep]
      rcases ih (acc.1, addToGroup acc.2 s.date s) d with ⟨ih1, ih2⟩
      constructor
      · rw [ih1]
        unfold specSameBatch
        rw [List.filter_cons]
        simp [hexec, specSameBatch]
      · rw [ih2]
        simp only [lookupGroup_addToGroup]
        unfold specNextBatch
        rw [List.filter_cons]
        by_cases hd : s.date = d
        · simp [hd, hexec, specNextBatch]
        · simp [hd, hexec, specNextBatch]
          exact fun h => hd h.symm

/-- The scheduling dictionaries of `manual_backtest` hold, under each
date, exactly the signals for that date and timing, in input order. -/
theorem lookupGroup_groupSignals (signals : List Signal) (d : Nat) :
    lookupGroup (groupSignals signals).1 d = specSameBatch signals d ∧
    lookupGroup (groupSignals signals).2 d = specNextBatch signals d := by
  rw [groupSignals_eq_foldl]
  have h := lookupGroup_groupStep_foldl signals ([], []) d
  simpa [lookupGroup, alookup] using h

/-- Named form of the fold step of `groupPSignals`. -/
def pGroupStep (dm : List (String × List Bar))
    (acc : List ((Nat × String) × List PSignal) × List ((Nat × String) × List PSignal))
    (s : PSignal) :
    List ((Nat × String) × List PSignal) × List ((Nat × String) × List PSignal) :=
  if (alookup dm s.symbol).isNone then acc
  else
    match s.execution with
    | ExecMode.close => (addToGroup acc.1 (s.date, s.symbol) s, acc.2)
    | ExecMode.next_open => (acc.1, addToGroup acc.2 (s.date, s.symbol) s)

theorem groupPSignals_eq_foldl (dm : List (String × List Bar)) (L : List PSignal) :
    groupPSignals dm L = L.foldl (pGroupStep dm) ([], []) := rfl

/-- The same-day batch for a (date, symbol) key in portfolio mode, read
directly off the signal list in input order; signals for unknown symbols
are dropped. -/
def specPSameBatch (dm : List (String × List Bar)) (signals : List PSignal)
    (d : Nat) (sym : String) : List PSignal :=
  signals.filter (fun s =>
    (alookup dm s.symbol).isSome &&
      decide (s.date = d ∧ s.symbol = sym ∧ s.execution = ExecMode.close))

/-- The next-open batch for a (date, symbol) key in portfolio mode. -/
def specPNextBatch (dm : List (String × List Bar)) (signals : List PSignal)
    (d : Nat) (sym : String) : List PSignal :=
  signals.filter (fun s =>
    (alookup dm s.symbol).isSome &&
      decide (s.date = d ∧ s.symbol = sym ∧ s.execution = ExecMode.next_open))

theorem lookupGroup_pGroupStep_foldl (dm : List (String × List Bar)) (L : List PSignal) :
    ∀ (acc : List ((Nat × String) × List PSignal) × List ((Nat × String) × List PSignal))
      (d : Nat) (sym : String),
      lookupGroup (L.foldl (pGroupStep dm) acc).1 (d, sym) =
          lookupGroup acc.1 (d, sym) ++ specPSameBatch dm L d sym ∧
      lookupGroup (L.foldl (pGroupStep dm) acc).2 (d, sym) =
          lookupGroup acc.2 (d, sym) ++ specPNextBatch dm L d sym := by
  induction L with
  | nil => intro acc d sym; simp [specPSameBatch, specPNextBatch]
  | cons s L ih =>
    intro acc d sym
    simp only [List.foldl_cons]
    by_cases hdm : (alookup dm s.symbol).isNone
    · have hstep : pGroupStep dm acc s = acc := by simp [pGroupStep, hdm]
      rw [hstep]
      rcases ih acc d sym with ⟨ih1, ih2⟩
      have hns : ¬ (alookup dm s.symbol).isSome = true := by
        simp [Option.isNone_iff_eq_none.mp hdm]
      constructor
      · rw [ih1]
        unfold specPSameBatch
        rw [List.filter_cons]
        simp [hns, specPSameBatch]
      · rw [ih2]
        unfold specPNextBatch
        rw [List.filter_cons]
        simp [hns, specPNextBatch]
    · have hs : (alookup dm s.symbol).isSome := by
        cases hx : alookup dm s.symbol with
        | none => rw [hx] at hdm; simp at hdm
        | some v => simp
      cases hexec : s.execution with
      | close =>
        have hstep : pGroupStep dm acc s = (addToGroup acc.1 (s.date, s.symbol) s, acc.2) := by
          simp [pGroupStep, hdm, hexec]
        rw [hstep]
        rcases ih (addToGroup acc.1 (s.date, s.symbol) s, acc.2) d sym with ⟨ih1, ih2⟩
        constructor
        · rw [ih1]
          simp only [lookupGroup_addToGroup]
          unfold specPSameBatch
          rw [List.filter_cons]
          by_cases hd : s.date = d ∧ s.symbol = sym
          · have heq : ((d, sym) : Nat × String) = (s.date, s.symbol) := by
              rw [hd.1, hd.2]
            have hs2 : (alookup dm sym).isSome = true := hd.2 ▸ hs
            simp [heq, hd.1, hd.2, hexec, hs, hs2, specPSameBatch]
          · have hne : ((d, sym) : Nat × String) ≠ (s.date, s.symbol) := by
              intro hh
              exact hd ⟨(Prod.mk.injEq _ _ _ _ ▸ hh).1.symm, (Prod.mk.injEq _ _ _ _ ▸ hh).2.symm⟩
            have hpred : ¬ (s.date = d ∧ s.symbol = sym ∧ s.execution = ExecMode.close) := by
              intro hh
              exact hd ⟨hh.1, hh.2.1⟩
            simp [hne, hpred, specPSameBatch]
        · rw [ih2]
          unfold specPNextBatch
          rw [List.filter_cons]
          simp [hexec, specPNextBatch]
      | next_open =>
        have hstep : pGroupStep dm acc s = (acc.1, addToGroup acc.2 (s.date, s.symbol) s) := by
          simp [pGroupStep, hdm, hexec]
        rw [hstep]
        rcases ih (acc.1, addToGroup acc.2 (s.date, s.symbol) s) d sym with ⟨ih1, ih2⟩
        constructor
        · rw [ih1]
          unfold specPSameBatch
          rw [List.filter_cons]
          simp [hexec, specPSameBatch]
        · rw [ih2]
          simp only [lookupGroup_addToGroup]
          unfold specPNextBatch
          rw [List.filter_cons]
          by_cases hd : s.date = d ∧ s.symbol = sym
          · have heq : ((d, sym) : Nat × String) = (s.date, s.symbol) := by
              rw [hd.1, hd.2]
            have hs2 : (alookup dm sym).isSome = true := hd.2 ▸ hs
            simp [heq, hd.1, hd.2, hexec, hs, hs2, specPNextBatch]
          · have hne : ((d, sym) : Nat × String) ≠ (s.date, s.symbol) := by
              intro hh
              exact hd ⟨(Prod.mk.injEq _ _ _ _ ▸ hh).1.symm, (Prod.mk.injEq _ _ _ _ ▸ hh).2.symm⟩
            have hpred : ¬ (s.date = d ∧ s.symbol = sym ∧ s.execution = ExecMode.next_open) := by
              intro hh
              exact hd ⟨hh.1, hh.2.1⟩
            simp [hne, hpred, specPNextBatch]

/-- The portfolio scheduling dictionaries hold, under each (date, symbol)
key, exactly the data-map-known signals for that key and timing, in
input order. -/
theorem lookupGroup_groupPSignals (dm : List (String × List Bar)) (signals : List PSignal)
    (d : Nat) (sym : String) :
    lookupGroup (groupPSignals dm signals).1 (d, sym) = specPSameBatch dm signals d sym ∧
    lookupGroup (groupPSignals dm signals).2 (d, sym) = specPNextBatch dm signals d sym := by
  rw [groupPSignals_eq_foldl]
  have h := lookupGroup_pGroupStep_foldl dm signals ([], []) d sym
  simpa [lookupGroup, alookup] using h

/-- Buckets of the portfolio scheduling dictionaries are never empty. -/
theorem groupPSignals_ne_nil (dm : List (String × List Bar)) (signals : List PSignal) :
    (∀ k l, alookup (groupPSignals dm signals).1 k = some l → l ≠ []) ∧
    (∀ k l, alookup (groupPSignals dm signals).2 k = some l → l ≠ []) := by
  rw [groupPSignals_eq_foldl]
  suffices h : ∀ acc : List ((Nat × String) × List PSignal) ×
      List ((Nat × String) × List PSignal),
      (∀ k l, alookup acc.1 k = some l → l ≠ []) →
      (∀ k l, alookup acc.2 k = some l → l ≠ []) →
      (∀ k l, alookup (signals.foldl (pGroupStep dm) acc).1 k = some l → l ≠ []) ∧
      (∀ k l, alookup (signals.foldl (pGroupStep dm) acc).2 k = some l → l ≠ []) by
    exact h ([], []) (by intro k l hl; simp [alookup] at hl) (by intro k l hl; simp [alookup] at hl)
  induction signals with
  | nil => intro acc h1 h2; exact ⟨h1, h2⟩
  | cons s L ih =>
    intro acc h1 h2
    simp only [List.foldl_cons]
    by_cases hdm : (alookup dm s.symbol).isNone
    · have hstep : pGroupStep dm acc s = acc := by simp [pGroupStep, hdm]
      rw [hstep]
      exact ih acc h1 h2
    · cases hexec : s.execution with
      | close =>
        have hstep : pGroupStep dm acc s = (addToGroup acc.1 (s.date, s.symbol) s, acc.2) := by
          simp [pGroupStep, hdm, hexec]
        rw [hstep]
        exact ih _ (addToGroup_ne_nil acc.1 (s.date, s.symbol) s h1) h2
      | next_open =>
        have hstep : pGroupStep dm acc s = (acc.1, addToGroup acc.2 (s.date, s.symbol) s) := by
          simp [pGroupStep, hdm, hexec]
        rw [hstep]
        exact ih _ h1 (addToGroup_ne_nil acc.2 (s.date, s.symbol) s h2)

/-! ## Metrics lemmas and claims C9, C10, C7 -/

theorem length_filter_gt_add_le (l : List (Rat × Rat)) :
    (l.filter (fun p => p.1 > p.2)).length + (l.filter (fun p => p.1 ≤ p.2)).length
      = l.length := by
  induction l with
  | nil => simp
  | cons p ps ih =>
    by_cases h : p.1 > p.2
    · rw [List.filter_cons_of_pos (by simpa using h),
        List.filter_cons_of_neg (by simpa using not_le.mpr h)]
      simp only [List.length_cons]
      omega
    · rw [List.filter_cons_of_neg (by simpa using h),
        List.filter_cons_of_pos (by simpa using not_lt.mp h)]
      simp only [List.length_cons]
      omega

/-- C9: an equity curve with fewer than two points makes
`calculate_metrics_from_data` return the empty report (`none`, modelling
the empty dictionary), whatever the trade ledger contains. -/
theorem c9_short_curve_empty_report (values : List Rat) (trades : List Trade)
    (initial_cash : Rat) (h : values.length < 2) :
    calculate_metrics_from_data values trades initial_cash = none := by
  unfold calculate_metrics_from_data
  rw [if_pos h]

/-- Witness for C9: a one-point equity curve with a nonempty ledger gets
no metrics. -/
theorem c9_short_curve_empty_report_witness :
    calculate_metrics_from_data [1000]
      [{ signal_date := 1, execution_date := 1, symbol := "", type := Side.sell,
         price := 10, signal_price := 10, size := 1, value := 10, commission := 0,
         execution_mode := ExecMode.close }] 1000 = none :=
  c9_short_curve_empty_report _ _ _ (by decide)

/-- C10: a sell reaching the FIFO queue while it is empty is silently
dropped from the pairing; the number of pairs never exceeds the number
of sells; and `wonTrades + lostTrades = tradeCount`, which counts
exactly the matched sells (the length of the pairing). -/
theorem c10_unmatched_sell_dropped :
    (∀ (t : Trade) (L : List Trade), t.type = Side.sell →
        pairTrades (t :: L) [] = pairTrades L []) ∧
    (∀ (L : List Trade) (q : List Rat),
        (pairTrades L q).length ≤ (L.filter (fun t => t.type = Side.sell)).length) ∧
    (∀ (values : List Rat) (L : List Trade) (ic : Rat) (m : Metrics),
        calculate_metrics_from_data values L ic = some m →
        m.wonTrades + m.lostTrades = m.tradeCount ∧
        m.tradeCount = (pairTrades L []).length) := by
  refine ⟨?_, ?_, ?_⟩
  · intro t L h
    simp [pairTrades, h]
  · intro L
    induction L with
    | nil => intro q; simp [pairTrades]
    | cons t L ih =>
      intro q
      cases hty : t.type with
      | buy =>
        have hnot : ¬ (t.type = Side.sell) := by rw [hty]; simp
        simp only [pairTrades, hty, List.filter_cons]
        simp only [hnot, decide_eq_true_eq, if_false, decide_eq_false hnot]
        exact ih (q ++ [t.price])
      | sell =>
        simp only [pairTrades, hty, List.filter_cons]
        simp only [decide_eq_true_eq, hty, if_true, decide_eq_true hty, List.length_cons]
        cases q with
        | nil => exact Nat.le_succ_of_le (ih [])
        | cons b bs => simpa using Nat.succ_le_succ (ih bs)
  · intro values L ic m h
    unfold calculate_metrics_from_data at h
    by_cases hlen : values.length < 2
    · rw [if_pos hlen] at h
      exact absurd h (by simp)
    · rw [if_neg hlen] at h
      injection h with h
      rw [← h]
      by_cases htr : L = []
      · subst htr
        simp [pairTrades]
      · simp only [ne_eq, htr, not_false_iff, if_true, List.length_map]
        exact ⟨length_filter_gt_add_le (pairTrades L []), trivial⟩

/-- Witness for C10: applying the three parts at concrete inputs — a
leading unmatched sell is dropped. -/
theorem c10_unmatched_sell_dropped_witness :
    pairTrades
      [{ signal_date := 1, execution_date := 1, symbol := "", type := Side.sell,
         price := 10, signal_price := 10, size := 1, value := 10, commission := 0,
         execution_mode := ExecMode.close }] [] = pairTrades [] [] :=
  c10_unmatched_sell_dropped.1 _ [] rfl

theorem pairTrades_proj (L1 : List Trade) :
    ∀ L2 : List Trade,
      L1.map (fun t => (t.type, t.price)) = L2.map (fun t => (t.type, t.price)) →
      ∀ q, pairTrades L1 q = pairTrades L2 q := by
  induction L1 with
  | nil =>
    intro L2 h q
    cases L2 with
    | nil => rfl
    | cons t M => simp at h
  | cons t L ih =>
    intro L2 h q
    cases L2 with
    | nil => simp at h
    | cons t2 M =>
      simp only [List.map_cons, List.cons.injEq, Prod.mk.injEq] at h
      obtain ⟨⟨htype, hprice⟩, htail⟩ := h
      cases hty : t.type with
      | buy =>
        have hty2 : t2.type = Side.buy := by rw [← htype, hty]
        simp only [pairTrades, hty, hty2, hprice]
        exact ih M htail (q ++ [t2.price])
      | sell =>
        have hty2 : t2.type = Side.sell := by rw [← htype, hty]
        simp only [pairTrades, hty, hty2, hprice]
        cases q with
        | nil => exact ih M htail []
        | cons b bs => exact congrArg (List.cons (t2.price, b)) (ih M htail bs)

/-- C7 amended: the win/loss statistics pair sells FIFO against one
global queue of buy prices across all symbols, so the whole metrics
report depends on the ledger only through its sequence of (side, price)
pairs — symbols, sizes and dates are ignored by the pairing. -/
theorem c7_pairing_symbol_blind (values : List Rat) (L1 L2 : List Trade) (ic : Rat)
    (h : L1.map (fun t => (t.type, t.price)) = L2.map (fun t => (t.type, t.price))) :
    calculate_metrics_from_data values L1 ic = calculate_metrics_from_data values L2 ic := by
  unfold calculate_metrics_from_data
  by_cases hlen : values.length < 2
  · rw [if_pos hlen, if_pos hlen]
  · rw [if_neg hlen, if_neg hlen]
    by_cases h1 : L1 = []
    · have h2 : L2 = [] := by
        subst h1
        cases L2 with
        | nil => rfl
        | cons t M => simp at h
      subst h1; subst h2; rfl
    · have h2 : L2 ≠ [] := by
        intro hc
        subst hc
        cases L1 with
        | nil => exact h1 rfl
        | cons t M => simp at h
      rw [if_pos h1, if_pos h2, pairTrades_proj L1 L2 h []]

/-- Ledger for the C7 counterexample: buy A at 10, buy B at 20, sell A
at 15, sell B at 25. -/
def c7L1 : List Trade :=
  [{ signal_date := 1, execution_date := 1, symbol := "A", type := Side.buy, price := 10,
     signal_price := 10, size := 1, value := 10, commission := 0,
     execution_mode := ExecMode.close },
   { signal_date := 1, execution_date := 1, symbol := "B", type := Side.buy, price := 20,
     signal_price := 20, size := 1, value := 20, commission := 0,
     execution_mode := ExecMode.close },
   { signal_date := 2, execution_date := 2, symbol := "A", type := Side.sell, price := 15,
     signal_price := 15, size := 1, value := 15, commission := 0,
     execution_mode := ExecMode.close },
   { signal_date := 2, execution_date := 2, symbol := "B", type := Side.sell, price := 25,
     signal_price := 25, size := 1, value := 25, commission := 0,
     execution_mode := ExecMode.close }]

/-- The same fills with only the two buys of different symbols swapped:
each symbol's own fill order is unchanged. -/
def c7L2 : List Trade :=
  [{ signal_date := 1, execution_date := 1, symbol := "B", type := Side.buy, price := 20,
     signal_price := 20, size := 1, value := 20, commission := 0,
     execution_mode := ExecMode.close },
   { signal_date := 1, execution_date := 1, symbol := "A", type := Side.buy, price := 10,
     signal_price := 10, size := 1, value := 10, commission := 0,
     execution_mode := ExecMode.close },
   { signal_date := 2, execution_date := 2, symbol := "A", type := Side.sell, price := 15,
     signal_price := 15, size := 1, value := 15, commission := 0,
     execution_mode := ExecMode.close },
   { signal_date := 2, execution_date := 2, symbol := "B", type := Side.sell, price := 25,
     signal_price := 25, size := 1, value := 25, commission := 0,
     execution_mode := ExecMode.close }]

/-- Counterexample for C7 as stated: swapping the two buys of different
symbols keeps each symbol's own fill order (the per-symbol
subsequences agree) yet changes `wonTrades` from 2 to 1 and `winRate`
from 100 to 50, because the pairing queue is global, not per-symbol. -/
theorem c7_counterexample :
    c7L1.filter (fun t => t.symbol = "A") = c7L2.filter (fun t => t.symbol = "A") ∧
    c7L1.filter (fun t => t.symbol = "B") = c7L2.filter (fun t => t.symbol = "B") ∧
    (calculate_metrics_from_data [1000, 1000] c7L1 1000).map Metrics.winRate
      = some 100 ∧
    (calculate_metrics_from_data [1000, 1000] c7L2 1000).map Metrics.winRate
      = some 50 := by
  refine ⟨by decide, by decide, ?_, ?_⟩
  · norm_num [c7L1, calculate_metrics_from_data, pairTrades, Option.map]
    simp
  · norm_num [c7L2, calculate_metrics_from_data, pairTrades, Option.map]
    simp

/-! ## Dictionary update lemmas and claim C2 -/

theorem alookup_aset_self {κ β : Type} [DecidableEq κ] (d : List (κ × β)) (k : κ) (v : β) :
    alookup (aset d k v) k = some v := by
  unfold aset
  by_cases h : (alookup d k).isSome
  · rw [if_pos h, alookup_setmap, if_pos rfl]
    cases hx : alookup d k with
    | none => rw [hx] at h; simp at h
    | some w => simp
  · rw [if_neg h, alookup_append]
    cases hx : alookup d k with
    | some w => rw [hx] at h; simp at h
    | none => simp [alookup]

theorem aget_aset_self {κ β : Type} [DecidableEq κ] (d : List (κ × β)) (k : κ) (v : β)
    (dflt : β) : aget (aset d k v) k dflt = v := by
  unfold aget
  rw [alookup_aset_self]
  rfl

/-- C2: a sell attempt is capped at the held shares in both engines.  In
single-symbol mode the post-sell position is `held - min requested held`
when the cap is positive (and the state is untouched otherwise), and it
is never negative.  In portfolio mode the attempt always returns `ok`
(the internal negative-position fatal branch is unreachable), with the
same capped arithmetic and a fill recording exactly
`min requested held` shares when positive. -/
theorem c2_sell_capped_no_short :
    (∀ (commission : Rat) (sig : Signal) (ed : Nat) (ep : Rat) (sd : Nat) (sp : Rat)
        (em : ExecMode) (st : MState), sig.amount < 0 →
      ∀ requested, requested = (match sig.type with
          | SigType.v => pyInt (abs sig.amount / ep)
          | SigType.a => pyInt (abs sig.amount)) →
        (0 < min requested st.shares →
          execute_trade commission sig ed ep sd sp em st =
            { cash := st.cash +
                (((min requested st.shares : Int) : Rat) * ep) * (1 - commission),
              shares := st.shares - min requested st.shares,
              trades := st.trades ++
                [{ signal_date := sd, execution_date := ed, symbol := "",
                   type := Side.sell, price := ep, signal_price := sp,
                   size := min requested st.shares,
                   value := ((min requested st.shares : Int) : Rat) * ep,
                   commission := (((min requested st.shares : Int) : Rat) * ep) * commission,
                   execution_mode := em }] } ∧
          0 ≤ st.shares - min requested st.shares) ∧
        (¬ 0 < min requested st.shares →
          execute_trade commission sig ed ep sd sp em st = st)) ∧
    (∀ (ic commission : Rat) (cons : Constraints) (sig : PSignal) (symbol : String)
        (ed : Nat) (ep : Rat) (sd : Nat) (sp : Rat) (em : ExecMode) (st : PState),
        sig.amount < 0 →
      ∀ requested held, requested = (match sig.type with
          | SigType.v => pyInt (abs sig.amount / ep)
          | SigType.a => pyInt (abs sig.amount)) →
        held = aget st.positions symbol 0 →
        (0 < min requested held →
          p_execute_trade ic commission cons sig symbol ed ep sd sp em st =
            Except.ok
              { cash := st.cash + (((min requested held : Int) : Rat) * ep) * (1 - commission),
                positions := aset st.positions symbol (held - min requested held),
                trades := st.trades ++
                  [{ signal_date := sd, execution_date := ed, symbol := symbol,
                     type := Side.sell, price := ep, signal_price := sp,
                     size := min requested held,
                     value := ((min requested held : Int) : Rat) * ep,
                     commission := (((min requested held : Int) : Rat) * ep) * commission,
                     execution_mode := em }] } ∧
          0 ≤ held - min requested held) ∧
        (¬ 0 < min requested held →
          p_execute_trade ic commission cons sig symbol ed ep sd sp em st =
            Except.ok st)) := by
  constructor
  · intro commission sig ed ep sd sp em st h requested hreq
    have hne : ¬ sig.amount = 0 := ne_of_lt h
    have hng : ¬ sig.amount > 0 := not_lt.mpr (le_of_lt h)
    constructor
    · intro hpos
      refine ⟨?_, by have := min_le_right requested st.shares; omega⟩
      cases hty : sig.type with
      | v =>
        rw [hty] at hreq
        have hreq2 : requested = pyInt (abs sig.amount / ep) := hreq
        simp only [execute_trade, hne, if_false, hty, hng, ← hreq2, if_pos hpos]
      | a =>
        rw [hty] at hreq
        have hreq2 : requested = pyInt (abs sig.amount) := hreq
        simp only [execute_trade, hne, if_false, hty, hng, ← hreq2, if_pos hpos]
    · intro hpos
      cases hty : sig.type with
      | v =>
        rw [hty] at hreq
        have hreq2 : requested = pyInt (abs sig.amount / ep) := hreq
        simp only [execute_trade, hne, if_false, hty, hng, ← hreq2, if_neg hpos]
      | a =>
        rw [hty] at hreq
        have hreq2 : requested = pyInt (abs sig.amount) := hreq
        simp only [execute_trade, hne, if_false, hty, hng, ← hreq2, if_neg hpos]
  · intro ic commission cons sig symbol ed ep sd sp em st h requested held hreq hheld
    have hne : ¬ sig.amount = 0 := ne_of_lt h
    have hng : ¬ sig.amount > 0 := not_lt.mpr (le_of_lt h)
    have hnn : 0 ≤ held - min requested held := by
      have := min_le_right requested held
      omega
    have hnneg : ¬ held - min requested held < 0 := not_lt.mpr hnn
    constructor
    · intro hpos
      refine ⟨?_, hnn⟩
      cases hty : sig.type with
      | v =>
        rw [hty] at hreq
        have hreq2 : requested = pyInt (abs sig.amount / ep) := hreq
        simp only [p_execute_trade, hne, if_false, hty, hng, settleSell, ← hreq2, ← hheld,
          if_pos hpos, hnneg]
      | a =>
        rw [hty] at hreq
        have hreq2 : requested = pyInt (abs sig.amount) := hreq
        simp only [p_execute_trade, hne, if_false, hty, hng, settleSell, ← hreq2, ← hheld,
          if_pos hpos, hnneg]
    · intro hpos
      cases hty : sig.type with
      | v =>
        rw [hty] at hreq
        have hreq2 : requested = pyInt (abs sig.amount / ep) := hreq
        simp only [p_execute_trade, hne, if_false, hty, hng, settleSell, ← hreq2, ← hheld,
          if_neg hpos]
      | a =>
        rw [hty] at hreq
        have hreq2 : requested = pyInt (abs sig.amount) := hreq
        simp only [p_execute_trade, hne, if_false, hty, hng, settleSell, ← hreq2, ← hheld,
          if_neg hpos]

/-- Witness for C2: selling 100 notional at price 10 with only 5 shares
held fills exactly 5 shares and leaves a zero position, with no error. -/
theorem c2_sell_capped_no_short_witness :
    p_execute_trade 0 0 { maxPositions := none, reserveCash := none }
      { date := 1, symbol := "A", type := SigType.v, amount := -100,
        execution := ExecMode.close } "A" 2 10 1 10 ExecMode.close
      { cash := 0, positions := [("A", 5)], trades := [] } =
      Except.ok
        { cash := 50, positions := [("A", 0)],
          trades := [{ signal_date := 1, execution_date := 2, symbol := "A",
                       type := Side.sell, price := 10, signal_price := 10, size := 5,
                       value := 50, commission := 0,
                       execution_mode := ExecMode.close }] } := by
  have h := (c2_sell_capped_no_short.2 0 0 { maxPositions := none, reserveCash := none }
    { date := 1, symbol := "A", type := SigType.v, amount := -100,
      execution := ExecMode.close } "A" 2 10 1 10 ExecMode.close
    { cash := 0, positions := [("A", 5)], trades := [] } (by norm_num) 10 5
    (by norm_num [pyInt]) (by norm_num [aget, alookup])).1 (by norm_num)
  rw [h.1]
  norm_num [aset, alookup]

/-! ## Claim C3: the reserve-cash shrink -/

theorem pyInt_eq_floor (x : Rat) (h : 0 ≤ x) : pyInt x = ⌊x⌋ := by
  unfold pyInt
  rw [if_pos h]

/-- C3: in portfolio mode with a positive `reserveCash` percentage, a
notional buy whose full-size total cost would push cash below
`minCash = initialCash * reserveCash / 100` is shrunk: with
`available = cash - minCash`, the executor rejects when `available ≤ 0`
or the shrunk count is zero, and otherwise fills exactly
`n = ⌊available / (price * (1 + commission))⌋` shares — the largest
integer whose total cost keeps cash at or above the floor. -/
theorem c3_reserve_cash_shrink
    (ic commission : Rat) (cons : Constraints) (r : Rat) (sig : PSignal) (symbol : String)
    (ed : Nat) (ep : Rat) (sd : Nat) (sp : Rat) (em : ExecMode) (st : PState)
    (hr : cons.reserveCash = some r) (hr0 : 0 < r) (hmp : cons.maxPositions = none)
    (hty : sig.type = SigType.v) (hamt : 0 < sig.amount) (hep : 0 < ep)
    (hcomm : 0 ≤ commission) (hic : 0 ≤ ic)
    (hpre : ¬ st.cash < ic * (r / 100))
    (hbreach : st.cash - ((pyInt (sig.amount / ep) : Rat) * ep) * (1 + commission)
        < ic * (r / 100)) :
    ∀ available n,
      available = st.cash - ic * (r / 100) →
      n = pyInt (available / (ep * (1 + commission))) →
      (available ≤ 0 →
        p_execute_trade ic commission cons sig symbol ed ep sd sp em st = Except.ok st) ∧
      (0 < available → n = 0 →
        p_execute_trade ic commission cons sig symbol ed ep sd sp em st = Except.ok st) ∧
      (0 < available → 0 < n →
        p_execute_trade ic commission cons sig symbol ed ep sd sp em st =
          Except.ok
            { cash := st.cash - ((n : Rat) * ep) * (1 + commission),
              positions := aset st.positions symbol (aget st.positions symbol 0 + n),
              trades := st.trades ++
                [{ signal_date := sd, execution_date := ed, symbol := symbol,
                   type := Side.buy, price := ep, signal_price := sp, size := n,
                   value := (n : Rat) * ep,
                   commission := ((n : Rat) * ep) * commission,
                   execution_mode := em }] } ∧
        ic * (r / 100) ≤ st.cash - ((n : Rat) * ep) * (1 + commission) ∧
        (∀ m : Int, ic * (r / 100) ≤ st.cash - ((m : Rat) * ep) * (1 + commission) →
          m ≤ n)) := by
  intro available n ha hn
  have hne : ¬ sig.amount = 0 := (ne_of_gt hamt)
  have hrne : r ≠ 0 := ne_of_gt hr0
  have hA : 0 < ep * (1 + commission) := by positivity
  have hmb : ∀ cnt, maxPositionsBlocks cons st.positions symbol cnt = false := by
    intro cnt
    simp [maxPositionsBlocks, truthyMax, hmp]
  have hrb : reservePrecheckBlocks cons ic st.cash = false := by
    simp [reservePrecheckBlocks, truthyReserve, hr, hrne, hpre]
  have hadj : adjustForReserve cons ic commission ep st.cash (pyInt (sig.amount / ep)) =
      (if available ≤ 0 then none else some n) := by
    unfold adjustForReserve
    have htr : truthyReserve cons = true := by simp [truthyReserve, hr, hrne]
    rw [if_pos htr]
    simp only [hr, Option.getD_some]
    rw [if_pos hbreach, ← ha, hn]
  have hmain : p_execute_trade ic commission cons sig symbol ed ep sd sp em st =
      (match adjustForReserve cons ic commission ep st.cash (pyInt (sig.amount / ep)) with
       | none => Except.ok st
       | some k =>
         Except.ok (settleBuy commission symbol ed ep sd sp em st k)) := by
    simp only [p_execute_trade, hne, if_false, hty, hamt, if_true, hmb, hrb,
      Bool.false_eq_true, if_pos hamt]
  rw [hmain, hadj]
  refine ⟨?_, ?_, ?_⟩
  · intro hav
    rw [if_pos hav]
  · intro hav hn0
    rw [if_neg (not_le.mpr hav)]
    simp only [settleBuy, hn0]
    norm_num
  · intro hav hn0
    rw [if_neg (not_le.mpr hav)]
    have hfloor : n = ⌊available / (ep * (1 + commission))⌋ := by
      rw [hn]
      exact pyInt_eq_floor _ (le_of_lt (div_pos hav hA))
    have hnA : (n : Rat) * (ep * (1 + commission)) ≤ available := by
      have h1 : (n : Rat) ≤ available / (ep * (1 + commission)) := by
        rw [hfloor]
        exact Int.floor_le _
      exact (le_div_iff hA).mp h1
    have htotal : ((n : Rat) * ep) * (1 + commission) ≤ st.cash := by
      have hmc : 0 ≤ ic * (r / 100) := by positivity
      have : (n : Rat) * ep * (1 + commission) ≤ available := by
        calc (n : Rat) * ep * (1 + commission)
            = (n : Rat) * (ep * (1 + commission)) := by ring
          _ ≤ available := hnA
      rw [ha] at this
      linarith
  -- the fill happens: guard holds
    have hsb : settleBuy commission symbol ed ep sd sp em st n =
        { cash := st.cash - ((n : Rat) * ep) * (1 + commission),
          positions := aset st.positions symbol (aget st.positions symbol 0 + n),
          trades := st.trades ++
            [{ signal_date := sd, execution_date := ed, symbol := symbol,
               type := Side.buy, price := ep, signal_price := sp, size := n,
               value := (n : Rat) * ep,
               commission := ((n : Rat) * ep) * commission,
               execution_mode := em }] } := by
      simp only [settleBuy, if_pos (And.intro htotal hn0)]
    refine ⟨congrArg Except.ok hsb, ?_, ?_⟩
    · have : (n : Rat) * ep * (1 + commission) ≤ available := by
        calc (n : Rat) * ep * (1 + commission)
            = (n : Rat) * (ep * (1 + commission)) := by ring
          _ ≤ available := hnA
      rw [ha] at this
      linarith
    · intro m hm
      have hmA : (m : Rat) * (ep * (1 + commission)) ≤ available := by
        rw [ha]
        nlinarith [hm]
      have : (m : Rat) ≤ available / (ep * (1 + commission)) :=
        (le_div_iff hA).mpr hmA
      rw [hfloor]
      exact Int.le_floor.mpr this

/-- Witness for C3, the spec scenario: initial cash 1000, reserve 50
percent, zero commission, a notional buy of 800 at price 10 is shrunk to
exactly 50 shares costing 500, leaving cash at the 500 floor. -/
theorem c3_reserve_cash_shrink_witness :
    p_execute_trade 1000 0 { maxPositions := none, reserveCash := some 50 }
      { date := 1, symbol := "A", type := SigType.v, amount := 800,
        execution := ExecMode.close } "A" 1 10 1 10 ExecMode.close
      { cash := 1000, positions := [], trades := [] } =
      Except.ok
        { cash := 500, positions := [("A", 50)],
          trades := [{ signal_date := 1, execution_date := 1, symbol := "A",
                       type := Side.buy, price := 10, signal_price := 10, size := 50,
                       value := 500, commission := 0,
                       execution_mode := ExecMode.close }] } := by
  have h := (c3_reserve_cash_shrink 1000 0
    { maxPositions := none, reserveCash := some 50 } 50
    { date := 1, symbol := "A", type := SigType.v, amount := 800,
      execution := ExecMode.close } "A" 1 10 1 10 ExecMode.close
    { cash := 1000, positions := [], trades := [] } rfl (by norm_num) rfl rfl
    (by norm_num) (by norm_num) (by norm_num) (by norm_num) (by norm_num)
    (by norm_num [pyInt]) 500 50 (by norm_num) (by norm_num [pyInt])).2.2
    (by norm_num) (by norm_num)
  rw [h.1]
  norm_num [aset, aget, alookup]

/-- The C7 ledger with every fill relabelled to symbol `Z` (the
projection to (side, price) is unchanged). -/
def c7L3 : List Trade :=
  [{ signal_date := 1, execution_date := 1, symbol := "Z", type := Side.buy, price := 10,
     signal_price := 10, size := 1, value := 10, commission := 0,
     execution_mode := ExecMode.close },
   { signal_date := 1, execution_date := 1, symbol := "Z", type := Side.buy, price := 20,
     signal_price := 20, size := 1, value := 20, commission := 0,
     execution_mode := ExecMode.close },
   { signal_date := 2, execution_date := 2, symbol := "Z", type := Side.sell, price := 15,
     signal_price := 15, size := 1, value := 15, commission := 0,
     execution_mode := ExecMode.close },
   { signal_date := 2, execution_date := 2, symbol := "Z", type := Side.sell, price := 25,
     signal_price := 25, size := 1, value := 25, commission := 0,
     execution_mode := ExecMode.close }]

/-- Witness for C7 amended: relabelling every symbol leaves the whole
metrics report unchanged, because the pairing never reads symbols. -/
theorem c7_pairing_symbol_blind_witness :
    calculate_metrics_from_data [1000, 1000] c7L1 1000 =
      calculate_metrics_from_data [1000, 1000] c7L3 1000 :=
  c7_pairing_symbol_blind [1000, 1000] c7L1 c7L3 1000 rfl

/-! ## Claim C8: commission monotonicity of buy sizing -/

theorem aget_settleBuy_delta (commission : Rat) (symbol : String) (ed : Nat) (ep : Rat)
    (sd : Nat) (sp : Rat) (em : ExecMode) (st : PState) (k : Int) :
    aget (settleBuy commission symbol ed ep sd sp em st k).positions symbol 0 -
        aget st.positions symbol 0 =
      (if ((k : Rat) * ep) * (1 + commission) ≤ st.cash ∧ k > 0 then k else 0) := by
  unfold settleBuy
  by_cases hg : ((k : Rat) * ep) * (1 + commission) ≤ st.cash ∧ k > 0
  · rw [if_pos hg, if_pos hg]
    simp only [aget_aset_self]
    omega
  · rw [if_neg hg, if_neg hg]
    omega

theorem pyInt_nonneg (x : Rat) (h : 0 ≤ x) : 0 ≤ pyInt x := by
  rw [pyInt_eq_floor x h]
  exact Int.floor_nonneg.mpr h

/-- The notional-buy path of the portfolio executor always succeeds and
returns the state produced by the reserve adjustment plus settlement. -/
theorem p_buy_run_form (ic commission : Rat) (cons : Constraints) (sig : PSignal)
    (symbol : String) (ed : Nat) (ep : Rat) (sd : Nat) (sp : Rat) (em : ExecMode)
    (st : PState) (hty : sig.type = SigType.v) (hamt : 0 < sig.amount)
    (hb1 : maxPositionsBlocks cons st.positions symbol
      ((st.positions.filter (fun p => 0 < p.2)).length) = false)
    (hb2 : reservePrecheckBlocks cons ic st.cash = false) :
    p_execute_trade ic commission cons sig symbol ed ep sd sp em st =
      Except.ok
        (match adjustForReserve cons ic commission ep st.cash (pyInt (sig.amount / ep)) with
         | none => st
         | some k => settleBuy commission symbol ed ep sd sp em st k) := by
  have hne : ¬ sig.amount = 0 := ne_of_gt hamt
  simp only [p_execute_trade, hne, if_false, hty, hamt, hb1, hb2, Bool.false_eq_true,
    if_pos hamt]
  cases adjustForReserve cons ic commission ep st.cash (pyInt (sig.amount / ep)) <;> rfl

/-- C8: for a fixed notional buy, raising the commission rate never
increases the number of shares filled.  Stated for the single-symbol
executor (share-position delta) and for the portfolio executor under its
constraints (position delta for the traded symbol), assuming a positive
price, commissions `0 ≤ c1 ≤ c2`, nonnegative initial cash and a
nonnegative reserve percentage when one is configured. -/
theorem c8_commission_monotonic :
    (∀ (c1 c2 : Rat) (sig : Signal) (ed : Nat) (ep : Rat) (sd : Nat) (sp : Rat)
        (em : ExecMode) (st : MState),
        sig.type = SigType.v → 0 < sig.amount → 0 < ep → c1 ≤ c2 →
        (execute_trade c2 sig ed ep sd sp em st).shares - st.shares ≤
          (execute_trade c1 sig ed ep sd sp em st).shares - st.shares) ∧
    (∀ (ic c1 c2 : Rat) (cons : Constraints) (sig : PSignal) (symbol : String)
        (ed : Nat) (ep : Rat) (sd : Nat) (sp : Rat) (em : ExecMode) (st : PState),
        sig.type = SigType.v → 0 < sig.amount → 0 < ep → 0 ≤ c1 → c1 ≤ c2 →
        0 ≤ ic → (∀ r, cons.reserveCash = some r → 0 ≤ r) →
        ∃ st1 st2,
          p_execute_trade ic c1 cons sig symbol ed ep sd sp em st = Except.ok st1 ∧
          p_execute_trade ic c2 cons sig symbol ed ep sd sp em st = Except.ok st2 ∧
          aget st2.positions symbol 0 - aget st.positions symbol 0 ≤
            aget st1.positions symbol 0 - aget st.positions symbol 0) := by
  constructor
  · intro c1 c2 sig ed ep sd sp em st hty hamt hep hc
    have hne : ¬ sig.amount = 0 := ne_of_gt hamt
    have hn0 : 0 ≤ pyInt (sig.amount / ep) :=
      pyInt_nonneg _ (le_of_lt (div_pos hamt hep))
    have hq : (0 : Rat) ≤ (pyInt (sig.amount / ep) : Rat) := by exact_mod_cast hn0
    have hnep : (0 : Rat) ≤ (pyInt (sig.amount / ep) : Rat) * ep :=
      mul_nonneg hq (le_of_lt hep)
    have hsh : ∀ c, (execute_trade c sig ed ep sd sp em st).shares =
        (if ((pyInt (sig.amount / ep) : Rat) * ep) * (1 + c) ≤ st.cash ∧
            pyInt (sig.amount / ep) > 0 then st.shares + pyInt (sig.amount / ep)
         else st.shares) := by
      intro c
      by_cases hg : ((pyInt (sig.amount / ep) : Rat) * ep) * (1 + c) ≤ st.cash ∧
          pyInt (sig.amount / ep) > 0
      · rw [if_pos hg]
        simp only [execute_trade, hne, if_false, hty, if_pos hamt, if_pos hg]
      · rw [if_neg hg]
        simp only [execute_trade, hne, if_false, hty, if_pos hamt, if_neg hg]
    rw [hsh c1, hsh c2]
    by_cases hg2 : ((pyInt (sig.amount / ep) : Rat) * ep) * (1 + c2) ≤ st.cash ∧
        pyInt (sig.amount / ep) > 0
    · have hcost : ((pyInt (sig.amount / ep) : Rat) * ep) * (1 + c1) ≤
          ((pyInt (sig.amount / ep) : Rat) * ep) * (1 + c2) := by nlinarith [hnep]
      rw [if_pos hg2, if_pos ⟨le_trans hcost hg2.1, hg2.2⟩]
    · rw [if_neg hg2]
      by_cases hg1 : ((pyInt (sig.amount / ep) : Rat) * ep) * (1 + c1) ≤ st.cash ∧
          pyInt (sig.amount / ep) > 0
      · rw [if_pos hg1]
        omega
      · rw [if_neg hg1]
  · intro ic c1 c2 cons sig symbol ed ep sd sp em st hty hamt hep hc1 hc hic hres
    have hc2 : 0 ≤ c2 := le_trans hc1 hc
    have hne : ¬ sig.amount = 0 := ne_of_gt hamt
    have hn0 : 0 ≤ pyInt (sig.amount / ep) :=
      pyInt_nonneg _ (le_of_lt (div_pos hamt hep))
    have hq : (0 : Rat) ≤ (pyInt (sig.amount / ep) : Rat) := by exact_mod_cast hn0
    have hnep : (0 : Rat) ≤ (pyInt (sig.amount / ep) : Rat) * ep :=
      mul_nonneg hq (le_of_lt hep)
    have hA1 : 0 < ep * (1 + c1) := by positivity
    have hA2 : 0 < ep * (1 + c2) := by nlinarith
    by_cases hb1 : maxPositionsBlocks cons st.positions symbol
        ((st.positions.filter (fun p => 0 < p.2)).length) = true
    · refine ⟨st, st, ?_, ?_, le_refl _⟩ <;>
        simp only [p_execute_trade, hne, if_false, hty, if_pos hamt, hb1, if_true]
    · rw [Bool.not_eq_true] at hb1
      by_cases hb2 : reservePrecheckBlocks cons ic st.cash = true
      · refine ⟨st, st, ?_, ?_, le_refl _⟩ <;>
          simp only [p_execute_trade, hne, if_false, hty, if_pos hamt, hb1, hb2,
            Bool.false_eq_true, if_false, if_true]
      · rw [Bool.not_eq_true] at hb2
        by_cases htr : truthyReserve cons = true
        · -- reserve configured
          obtain ⟨r, hrsome⟩ : ∃ r, cons.reserveCash = some r := by
            unfold truthyReserve at htr
            cases hx : cons.reserveCash with
            | none => rw [hx] at htr; simp at htr
            | some r => exact ⟨r, rfl⟩
          have hrpos : 0 ≤ r := hres r hrsome
          have hmc : 0 ≤ ic * (r / 100) := by positivity
          have hprecheck : ¬ st.cash < ic * (r / 100) := by
            unfold reservePrecheckBlocks at hb2
            rw [htr, Bool.true_and, hrsome] at hb2
            simpa using hb2
          have hrun : ∀ c,
              p_execute_trade ic c cons sig symbol ed ep sd sp em st =
                Except.ok
                  (if st.cash - ((pyInt (sig.amount / ep) : Rat) * ep) * (1 + c) <
                      ic * (r / 100) then
                    (if st.cash - ic * (r / 100) ≤ 0 then st
                     else settleBuy c symbol ed ep sd sp em st
                       (pyInt ((st.cash - ic * (r / 100)) / (ep * (1 + c)))))
                   else settleBuy c symbol ed ep sd sp em st (pyInt (sig.amount / ep))) := by
            intro c
            rw [p_buy_run_form ic c cons sig symbol ed ep sd sp em st hty hamt hb1 hb2]
            have hadj : adjustForReserve cons ic c ep st.cash (pyInt (sig.amount / ep)) =
                (if st.cash - ((pyInt (sig.amount / ep) : Rat) * ep) * (1 + c) <
                    ic * (r / 100) then
                  (if st.cash - ic * (r / 100) ≤ 0 then none
                   else some (pyInt ((st.cash - ic * (r / 100)) / (ep * (1 + c)))))
                 else some (pyInt (sig.amount / ep))) := by
              unfold adjustForReserve
              rw [if_pos htr]
              simp only [hrsome, Option.getD_some]
            rw [hadj]
            by_cases hbr : st.cash - ((pyInt (sig.amount / ep) : Rat) * ep) * (1 + c) <
                ic * (r / 100)
            · rw [if_pos hbr, if_pos hbr]
              by_cases hav : st.cash - ic * (r / 100) ≤ 0
              · rw [if_pos hav, if_pos hav]
              · rw [if_neg hav, if_neg hav]
            · rw [if_neg hbr, if_neg hbr]
          refine ⟨_, _, hrun c1, hrun c2, ?_⟩
          by_cases hbr2 : st.cash - ((pyInt (sig.amount / ep) : Rat) * ep) * (1 + c2) <
              ic * (r / 100)
          · by_cases hbr1 : st.cash - ((pyInt (sig.amount / ep) : Rat) * ep) * (1 + c1) <
                ic * (r / 100)
            · -- both shrink
              rw [if_pos hbr1, if_pos hbr2]
              by_cases hav : st.cash - ic * (r / 100) ≤ 0
              · rw [if_pos hav, if_pos hav]
              · rw [if_neg hav, if_neg hav]
                have havpos : 0 < st.cash - ic * (r / 100) := lt_of_not_le hav
                have hfl1 : pyInt ((st.cash - ic * (r / 100)) / (ep * (1 + c1))) =
                    ⌊(st.cash - ic * (r / 100)) / (ep * (1 + c1))⌋ :=
                  pyInt_eq_floor _ (le_of_lt (div_pos havpos hA1))
                have hfl2 : pyInt ((st.cash - ic * (r / 100)) / (ep * (1 + c2))) =
                    ⌊(st.cash - ic * (r / 100)) / (ep * (1 + c2))⌋ :=
                  pyInt_eq_floor _ (le_of_lt (div_pos havpos hA2))
                have hmono : pyInt ((st.cash - ic * (r / 100)) / (ep * (1 + c2))) ≤
                    pyInt ((st.cash - ic * (r / 100)) / (ep * (1 + c1))) := by
                  rw [hfl1, hfl2]
                  apply Int.floor_le_floor
                  apply div_le_div_of_nonneg_left (le_of_lt havpos) hA1
                  nlinarith
                have hcost : ∀ c, 0 < ep * (1 + c) →
                    ((pyInt ((st.cash - ic * (r / 100)) / (ep * (1 + c))) : Rat) * ep) *
                        (1 + c) ≤ st.cash := by
                  intro c hAc
                  have h1 : (⌊(st.cash - ic * (r / 100)) / (ep * (1 + c))⌋ : Rat) ≤
                      (st.cash - ic * (r / 100)) / (ep * (1 + c)) := Int.floor_le _
                  have h2 : (⌊(st.cash - ic * (r / 100)) / (ep * (1 + c))⌋ : Rat) *
                      (ep * (1 + c)) ≤ st.cash - ic * (r / 100) :=
                    (le_div_iff hAc).mp h1
                  rw [pyInt_eq_floor _ (le_of_lt (div_pos havpos hAc))]
                  nlinarith
                rw [aget_settleBuy_delta, aget_settleBuy_delta]
                by_cases hp2 : 0 < pyInt ((st.cash - ic * (r / 100)) / (ep * (1 + c2)))
                · have hp1 : 0 < pyInt ((st.cash - ic * (r / 100)) / (ep * (1 + c1))) :=
                    lt_of_lt_of_le hp2 hmono
                  rw [if_pos (And.intro (hcost c2 hA2) hp2),
                    if_pos (And.intro (hcost c1 hA1) hp1)]
                  exact hmono
                · rw [if_neg (fun hh => hp2 hh.2)]
                  by_cases hp1 : 0 < pyInt ((st.cash - ic * (r / 100)) / (ep * (1 + c1)))
                  · rw [if_pos (And.intro (hcost c1 hA1) hp1)]
                    exact le_of_lt hp1
                  · rw [if_neg (fun hh => hp1 hh.2)]
            · -- only the larger commission breaches the floor
              rw [if_neg hbr1, if_pos hbr2]
              have hnpos : 0 < pyInt (sig.amount / ep) := by
                rcases lt_or_eq_of_le hn0 with h | h
                · exact h
                · exfalso
                  rw [← h] at hbr2
                  simp only [Int.cast_zero, zero_mul, mul_zero, sub_zero] at hbr2
                  exact hprecheck hbr2
              have hg1 : ((pyInt (sig.amount / ep) : Rat) * ep) * (1 + c1) ≤ st.cash := by
                have := not_lt.mp hbr1
                linarith
              rw [aget_settleBuy_delta, if_pos (And.intro hg1 hnpos)]
              by_cases hav : st.cash - ic * (r / 100) ≤ 0
              · rw [if_pos hav]
                omega
              · rw [if_neg hav]
                have havpos : 0 < st.cash - ic * (r / 100) := lt_of_not_le hav
                rw [aget_settleBuy_delta]
                have hlt : pyInt ((st.cash - ic * (r / 100)) / (ep * (1 + c2))) <
                    pyInt (sig.amount / ep) := by
                  rw [pyInt_eq_floor _ (le_of_lt (div_pos havpos hA2))]
                  apply Int.floor_lt.mpr
                  rw [div_lt_iff hA2]
                  push_cast
                  nlinarith
                split
                · omega
                · omega
          · -- neither commission breaches the floor
            have hbr1 : ¬ st.cash - ((pyInt (sig.amount / ep) : Rat) * ep) * (1 + c1) <
                ic * (r / 100) := by
              intro hh
              apply hbr2
              have hcost : ((pyInt (sig.amount / ep) : Rat) * ep) * (1 + c1) ≤
                  ((pyInt (sig.amount / ep) : Rat) * ep) * (1 + c2) := by nlinarith [hnep]
              linarith
            rw [if_neg hbr1, if_neg hbr2]
            rw [aget_settleBuy_delta, aget_settleBuy_delta]
            by_cases hg2 : ((pyInt (sig.amount / ep) : Rat) * ep) * (1 + c2) ≤ st.cash ∧
                pyInt (sig.amount / ep) > 0
            · have hcost : ((pyInt (sig.amount / ep) : Rat) * ep) * (1 + c1) ≤
                  ((pyInt (sig.amount / ep) : Rat) * ep) * (1 + c2) := by nlinarith [hnep]
              rw [if_pos hg2, if_pos (And.intro (le_trans hcost hg2.1) hg2.2)]
            · rw [if_neg hg2]
              split
              · omega
              · omega
        · -- no reserve configured: both runs settle the full size
          rw [Bool.not_eq_true] at htr
          have hrun : ∀ c,
              p_execute_trade ic c cons sig symbol ed ep sd sp em st =
                Except.ok (settleBuy c symbol ed ep sd sp em st
                  (pyInt (sig.amount / ep))) := by
            intro c
            rw [p_buy_run_form ic c cons sig symbol ed ep sd sp em st hty hamt hb1 hb2]
            have hadj : adjustForReserve cons ic c ep st.cash (pyInt (sig.amount / ep)) =
                some (pyInt (sig.amount / ep)) := by
              unfold adjustForReserve
              rw [htr]
              simp
            rw [hadj]
          refine ⟨_, _, hrun c1, hrun c2, ?_⟩
          rw [aget_settleBuy_delta, aget_settleBuy_delta]
          by_cases hg2 : ((pyInt (sig.amount / ep) : Rat) * ep) * (1 + c2) ≤ st.cash ∧
              pyInt (sig.amount / ep) > 0
          · have hcost : ((pyInt (sig.amount / ep) : Rat) * ep) * (1 + c1) ≤
                ((pyInt (sig.amount / ep) : Rat) * ep) * (1 + c2) := by nlinarith [hnep]
            rw [if_pos hg2, if_pos (And.intro (le_trans hcost hg2.1) hg2.2)]
          · rw [if_neg hg2]
            split
            · omega
            · omega

/-- Witness for C8: raising the commission from 0 to 10 percent cannot
increase the shares bought by a notional-800 buy at price 10 from 1000
cash. -/
theorem c8_commission_monotonic_witness :
    (execute_trade (1 / 10)
        { date := 1, type := SigType.v, amount := 800, execution := ExecMode.close }
        1 10 1 10 ExecMode.close { cash := 1000, shares := 0, trades := [] }).shares -
        ({ cash := 1000, shares := 0, trades := [] } : MState).shares ≤
      (execute_trade 0
        { date := 1, type := SigType.v, amount := 800, execution := ExecMode.close }
        1 10 1 10 ExecMode.close { cash := 1000, shares := 0, trades := [] }).shares -
        ({ cash := 1000, shares := 0, trades := [] } : MState).shares :=
  c8_commission_monotonic.1 0 (1 / 10)
    { date := 1, type := SigType.v, amount := 800, execution := ExecMode.close }
    1 10 1 10 ExecMode.close { cash := 1000, shares := 0, trades := [] }
    rfl (by norm_num) (by norm_num) (by norm_num)

/-! ## Claim C6: price-integrity errors and the fallback clamp -/

theorem manualLoop_error_of_bad_bar (commission : Rat)
    (same_day next_day : List (Nat × List Signal)) :
    ∀ (bars : List Bar) (st : MState) (prev : Option (Nat × Rat))
      (eq : List EquityPoint),
      (∃ b ∈ bars, b.close ≤ 0 ∨ b.open_ ≤ 0) →
      ∃ e, manualLoop commission same_day next_day bars st prev eq = Except.error e := by
  intro bars
  induction bars with
  | nil =>
    intro st prev eq h
    obtain ⟨b, hb, _⟩ := h
    exact absurd hb (List.not_mem_nil b)
  | cons bar rest ih =>
    intro st prev eq h
    by_cases hcl : bar.close ≤ 0
    · exact ⟨errInvalidClose, by simp only [manualLoop, if_pos hcl]⟩
    · by_cases hop : bar.open_ ≤ 0
      · exact ⟨errInvalidOpen, by simp only [manualLoop, if_neg hcl, if_pos hop]⟩
      · obtain ⟨b, hb, hbad⟩ := h
        rcases List.mem_cons.mp hb with hb | hb
        · subst hb
          rcases hbad with hbad | hbad
          · exact absurd hbad hcl
          · exact absurd hbad hop
        · obtain ⟨e, he⟩ := ih _ _ _ ⟨b, hb, hbad⟩
          exact ⟨e, by simp only [manualLoop, if_neg hcl, if_neg hop]; exact he⟩

/-- C6 amended: (1) single-symbol mode aborts whenever any bar in the
frame has a non-positive open or close; (2) portfolio same-day execution
aborts on a non-positive close of the bar it executes against; (3)
portfolio valuation of a held position aborts on a non-positive close of
the day's bar; but (4) when the symbol has no bar for the day and the
most recent prior close is non-positive, the valuation does NOT abort —
it clamps the position's value to zero (with a stderr warning) and
continues. -/
theorem c6_price_integrity_and_fallback_clamp :
    (∀ (df : List Bar) (signals : List Signal) (ic commission : Rat),
      (∃ b ∈ df, b.close ≤ 0 ∨ b.open_ ≤ 0) →
      ∃ e, manual_backtest df signals ic commission = Except.error e) ∧
    (∀ (ic commission : Rat) (cons : Constraints)
        (sd : List ((Nat × String) × List PSignal)) (d : Nat)
        (dm : List (String × List Bar)) (st : PState) (sym : String) (df : List Bar)
        (batch : List PSignal) (row : Bar),
      (sym, df) ∈ dm → alookup sd (d, sym) = some batch →
      df.find? (fun b => b.date == d) = some row → row.close ≤ 0 →
      ∃ e, execSameDayAll ic commission cons sd d dm st = Except.error e) ∧
    (∀ (dm : List (String × List Bar)) (d : Nat) (entries : List (String × Int))
        (pv : Rat) (sv : List (String × Rat)) (sym : String) (n : Int) (df : List Bar)
        (row : Bar),
      (sym, n) ∈ entries → 0 < n → alookup dm sym = some df →
      df.find? (fun b => b.date == d) = some row → row.close ≤ 0 →
      ∃ e, valuePositions dm d entries pv sv = Except.error e) ∧
    (∀ (dm : List (String × List Bar)) (d : Nat) (sym : String) (n : Int)
        (df : List Bar) (pv : Rat) (sv : List (String × Rat)) (p : Bar) (ps : List Bar),
      0 < n → alookup dm sym = some df →
      df.find? (fun b => b.date == d) = none →
      df.filter (fun b => b.date < d) = p :: ps →
      (ps.foldl (fun best b => if b.date > best.date then b else best) p).close ≤ 0 →
      valuePositions dm d [(sym, n)] pv sv = Except.ok (pv, aset sv sym 0)) := by
  refine ⟨?_, ?_, ?_, ?_⟩
  · intro df signals ic commission h
    obtain ⟨e, he⟩ := manualLoop_error_of_bad_bar commission (groupSignals signals).1
      (groupSignals signals).2 df { cash := ic, shares := 0, trades := [] } none [] h
    refine ⟨e, ?_⟩
    unfold manual_backtest
    simp only [he]
  · intro ic commission cons sd d dm
    induction dm with
    | nil =>
      intro st sym df batch row hmem
      exact absurd hmem (List.not_mem_nil _)
    | cons hd rest ih =>
      intro st sym df batch row hmem hbatch hrow hbad
      obtain ⟨s0, df0⟩ := hd
      rcases List.mem_cons.mp hmem with heq | hmem2
      · injection heq with he1 he2
        subst he1
        subst he2
        refine ⟨errPClose, ?_⟩
        simp only [execSameDayAll, hbatch, hrow]
        rw [if_pos hbad]
      · simp only [execSameDayAll]
        cases hb0 : alookup sd (d, s0) with
        | none =>
          simp only []
          exact ih st sym df batch row hmem2 hbatch hrow hbad
        | some batch0 =>
          simp only []
          cases hr0 : List.find? (fun b => b.date == d) df0 with
          | none =>
            simp only []
            exact ih st sym df batch row hmem2 hbatch hrow hbad
          | some row0 =>
            simp only []
            by_cases hp0 : row0.close ≤ 0
            · exact ⟨errPClose, by rw [if_pos hp0]⟩
            · rw [if_neg hp0]
              cases hef : efold (fun s sig => p_execute_trade ic commission cons sig s0 d
                  row0.close d row0.close ExecMode.close s) st batch0 with
              | error e => exact ⟨e, by simp only []⟩
              | ok st2 =>
                simp only []
                exact ih st2 sym df batch row hmem2 hbatch hrow hbad
  · intro dm d entries
    induction entries with
    | nil =>
      intro pv sv sym n df row hmem
      exact absurd hmem (List.not_mem_nil _)
    | cons hd rest ih =>
      intro pv sv sym n df row hmem hn hdf hrow hbad
      obtain ⟨s0, n0⟩ := hd
      rcases List.mem_cons.mp hmem with heq | hmem2
      · injection heq with he1 he2
        subst he1
        subst he2
        refine ⟨errPValuationPrice, ?_⟩
        simp only [valuePositions, hdf, hrow]
        rw [if_neg (not_lt.mpr (le_of_lt hn)), if_pos hn, if_pos hbad]
      · simp only [valuePositions]
        by_cases hneg : n0 < 0
        · exact ⟨errNegShares, by rw [if_pos hneg]⟩
        · rw [if_neg hneg]
          by_cases hpos : n0 > 0
          · rw [if_pos hpos]
            cases hdf0 : alookup dm s0 with
            | none =>
              simp only []
              exact ⟨errKey, rfl⟩
            | some df0 =>
              simp only []
              cases hr0 : List.find? (fun b => b.date == d) df0 with
              | some row0 =>
                simp only []
                by_cases hp0 : row0.close ≤ 0
                · exact ⟨errPValuationPrice, by rw [if_pos hp0]⟩
                · rw [if_neg hp0]
                  by_cases hv0 : (n0 : Rat) * row0.close < 0
                  · exact ⟨errValueNeg, by rw [if_pos hv0]⟩
                  · rw [if_neg hv0]
                    exact ih _ _ sym n df row hmem2 hn hdf hrow hbad
              | none =>
                simp only []
                cases hfil : List.filter (fun b => decide (b.date < d)) df0 with
                | nil =>
                  simp only []
                  exact ih _ _ sym n df row hmem2 hn hdf hrow hbad
                | cons p0 ps0 =>
                  simp only []
                  by_cases hlp : (ps0.foldl
                      (fun best b => if b.date > best.date then b else best) p0).close ≤ 0
                  · rw [if_pos hlp]
                    exact ih _ _ sym n df row hmem2 hn hdf hrow hbad
                  · rw [if_neg hlp]
                    exact ih _ _ sym n df row hmem2 hn hdf hrow hbad
          · rw [if_neg hpos]
            exact ih _ _ sym n df row hmem2 hn hdf hrow hbad
  · intro dm d sym n df pv sv p ps hn hdf hnone hfil hbad
    simp only [valuePositions, hdf, hnone, hfil]
    rw [if_neg (not_lt.mpr (le_of_lt hn)), if_pos hn, if_pos hbad]

/-- Data map for the C6 counterexample: symbol A has a single bar on day
1 whose close is -5; symbol B brings day 2 into the master calendar. -/
def c6dm : List (String × List Bar) :=
  [("A", [{ date := 1, open_ := 10, high := 10, low := 10, close := -5 }]),
   ("B", [{ date := 1, open_ := 10, high := 10, low := 10, close := 10 },
          { date := 2, open_ := 10, high := 10, low := 10, close := 10 }])]

/-- Counterexample for C6 as stated: on day 2 symbol A is held with one
share, has no bar, and the bar consulted for its last-known close has
close -5 ≤ 0; the claim demands a fatal data-integrity abort, yet the
full day step completes with `ok`, valuing the position at zero. -/
theorem c6_counterexample :
    pDay c6dm 1000 0 { maxPositions := none, reserveCash := none } [] []
      (some 1) 2 { cash := 990, positions := [("A", 1)], trades := [] } =
    Except.ok
      ({ cash := 990, positions := [("A", 1)], trades := [] },
       { date := 2, value := 990, cash := 990, positions := [("A", 1)],
         stock_values := [("A", 0), ("B", 0)] }) := by
  norm_num [pDay, c6dm, execNextDayAll, execSameDayAll, valuePositions, zeroFill,
    alookup, aset, lookupGroup, show ("A" : String) ≠ "B" by decide,
    show ("B" : String) ≠ "A" by decide]

/-- Witness for C6 amended: the fallback valuation of held symbol A on
day 2 returns `ok` with a zero stock value instead of aborting. -/
theorem c6_price_integrity_and_fallback_clamp_witness :
    valuePositions c6dm 2 [("A", 1)] 990 [] = Except.ok (990, aset [] "A" 0) :=
  c6_price_integrity_and_fallback_clamp.2.2.2 c6dm 2 "A" 1
    [{ date := 1, open_ := 10, high := 10, low := 10, close := -5 }] 990 []
    { date := 1, open_ := 10, high := 10, low := 10, close := -5 } []
    (by norm_num) (by norm_num [c6dm, alookup]) (by norm_num)
    (by norm_num) (by norm_num)

/-! ## Claim C5: last-day next-open signals -/

theorem execute_trade_trades_sub (c : Rat) (sig : Signal) (ed : Nat) (ep : Rat) (sd : Nat)
    (sp : Rat) (em : ExecMode) (st : MState) :
    ∀ t ∈ (execute_trade c sig ed ep sd sp em st).trades,
      t ∈ st.trades ∨ (t.execution_mode = em ∧ t.signal_date = sd) := by
  intro t ht
  unfold execute_trade at ht
  by_cases h0 : sig.amount = 0
  · rw [if_pos h0] at ht
    exact Or.inl ht
  · rw [if_neg h0] at ht
    cases hty : sig.type <;> simp only [hty] at ht <;>
      split_ifs at ht <;>
        first
          | exact Or.inl ht
          | (rcases List.mem_append.mp ht with hin | hin
             · exact Or.inl hin
             · rcases List.mem_singleton.mp hin with rfl
               exact Or.inr ⟨rfl, rfl⟩)

theorem foldl_execute_trades_sub (c : Rat) (ed : Nat) (ep : Rat) (sd : Nat) (sp : Rat)
    (em : ExecMode) :
    ∀ (batch : List Signal) (st : MState),
      ∀ t ∈ (batch.foldl (fun s sig => execute_trade c sig ed ep sd sp em s) st).trades,
        t ∈ st.trades ∨ (t.execution_mode = em ∧ t.signal_date = sd) := by
  intro batch
  induction batch with
  | nil => intro st t ht; exact Or.inl ht
  | cons s0 rest ih =>
    intro st t ht
    rcases ih (execute_trade c s0 ed ep sd sp em st) t ht with hin | hp
    · exact execute_trade_trades_sub c s0 ed ep sd sp em st t hin
    · exact Or.inr hp

theorem manualLoop_prev (commission : Rat) (sd nd : List (Nat × List Signal)) :
    ∀ (bars : List Bar) (st : MState) (prev : Option (Nat × Rat)) (eq : List EquityPoint)
      (res : MState × Option (Nat × Rat) × List EquityPoint) (lb : Bar),
      manualLoop commission sd nd bars st prev eq = Except.ok res →
      bars.getLast? = some lb →
      res.2.1 = some (lb.date, lb.close) := by
  intro bars
  induction bars with
  | nil =>
    intro st prev eq res lb h hl
    exact absurd hl (by simp)
  | cons bar rest ih =>
    intro st prev eq res lb h hl
    unfold manualLoop at h
    by_cases hcl : bar.close ≤ 0
    · rw [if_pos hcl] at h
      exact absurd h (by simp)
    · rw [if_neg hcl] at h
      by_cases hop : bar.open_ ≤ 0
      · rw [if_pos hop] at h
        exact absurd h (by simp)
      · rw [if_neg hop] at h
        cases rest with
        | nil =>
          simp only [manualLoop] at h
          injection h with h
          rw [← h]
          have : lb = bar := by
            have : some bar = some lb := hl
            injection this with h2
            exact h2.symm
          rw [this]
        | cons b2 rest2 =>
          rw [List.getLast?_cons_cons] at hl
          exact ih _ _ _ res lb h hl

theorem manualLoop_no_lastday_nextopen (commission : Rat)
    (sd nd : List (Nat × List Signal)) (D : Nat) :
    ∀ (bars : List Bar) (st : MState) (prev : Option (Nat × Rat)) (eq : List EquityPoint)
      (res : MState × Option (Nat × Rat) × List EquityPoint),
      List.Pairwise (fun a b => a.date < b.date) bars →
      (∀ b ∈ bars, b.date ≤ D) →
      (∀ pd pc, prev = some (pd, pc) → ∀ b ∈ bars, pd < b.date) →
      (∀ t ∈ st.trades, t.execution_mode = ExecMode.next_open → t.signal_date ≠ D) →
      manualLoop commission sd nd bars st prev eq = Except.ok res →
      ∀ t ∈ res.1.trades, t.execution_mode = ExecMode.next_open → t.signal_date ≠ D := by
  intro bars
  induction bars with
  | nil =>
    intro st prev eq res hpw hD hprev hQ h
    unfold manualLoop at h
    injection h with h
    rw [← h]
    exact hQ
  | cons bar rest ih =>
    intro st prev eq res hpw hD hprev hQ h
    unfold manualLoop at h
    by_cases hcl : bar.close ≤ 0
    · rw [if_pos hcl] at h
      exact absurd h (by simp)
    · rw [if_neg hcl] at h
      by_cases hop : bar.open_ ≤ 0
      · rw [if_pos hop] at h
        exact absurd h (by simp)
      · rw [if_neg hop] at h
        have hbar_le : bar.date ≤ D := hD bar (List.mem_cons_self bar rest)
        have hQ1 : ∀ t ∈ (match prev with
            | some pv =>
              (lookupGroup nd pv.1).foldl
                (fun s sig =>
                  execute_trade commission sig bar.date bar.open_ pv.1 pv.2
                    ExecMode.next_open s) st
            | none => st).trades,
            t.execution_mode = ExecMode.next_open → t.signal_date ≠ D := by
          cases hpv : prev with
          | none => exact hQ
          | some pv =>
            intro t ht hmode
            rcases foldl_execute_trades_sub commission bar.date bar.open_ pv.1 pv.2
                ExecMode.next_open (lookupGroup nd pv.1) st t ht with hin | hp
            · exact hQ t hin hmode
            · have hlt : pv.1 < bar.date :=
                hprev pv.1 pv.2 (by rw [hpv]) bar (List.mem_cons_self bar rest)
              rw [hp.2]
              omega
        have hQ2 : ∀ t ∈ ((lookupGroup sd bar.date).foldl
            (fun s sig =>
              execute_trade commission sig bar.date bar.close bar.date bar.close
                ExecMode.close s)
            (match prev with
             | some pv =>
               (lookupGroup nd pv.1).foldl
                 (fun s sig =>
                   execute_trade commission sig bar.date bar.open_ pv.1 pv.2
                     ExecMode.next_open s) st
             | none => st)).trades,
            t.execution_mode = ExecMode.next_open → t.signal_date ≠ D := by
          intro t ht hmode
          rcases foldl_execute_trades_sub commission bar.date bar.close bar.date bar.close
              ExecMode.close (lookupGroup sd bar.date) _ t ht with hin | hp
          · exact hQ1 t hin hmode
          · rw [hp.1] at hmode
            exact absurd hmode (by simp)
        refine ih _ _ _ res (List.pairwise_cons.mp hpw).2
          (fun b hb => hD b (List.mem_cons_of_mem bar hb)) ?_ hQ2 h
        intro pd pc hpd b hb
        injection hpd with hpd
        have h1 : bar.date = pd := congrArg Prod.fst hpd
        rw [← h1]
        exact (List.pairwise_cons.mp hpw).1 b hb

theorem pairwise_date_le_getLast :
    ∀ (l : List Bar) (lb : Bar), List.Pairwise (fun a b => a.date < b.date) l →
      l.getLast? = some lb → ∀ b ∈ l, b.date ≤ lb.date := by
  intro l
  induction l with
  | nil =>
    intro lb _ hl
    exact absurd hl (by simp)
  | cons a rest ih =>
    intro lb hpw hl b hb
    cases rest with
    | nil =>
      have heq : lb = a := by
        have h2 : some a = some lb := hl
        injection h2 with h2
        exact h2.symm
      rcases List.mem_cons.mp hb with rfl | hb2
      · rw [heq]
      · exact absurd hb2 (List.not_mem_nil b)
    | cons a2 rest2 =>
      rw [List.getLast?_cons_cons] at hl
      have hpc := List.pairwise_cons.mp hpw
      rcases List.mem_cons.mp hb with rfl | hb2
      · have hmem : lb ∈ a2 :: rest2 := by
          rcases List.mem_getLast?_eq_getLast
              (show lb ∈ (a2 :: rest2).getLast? from Option.mem_def.mpr hl) with ⟨hne, hEq⟩
          rw [hEq]
          exact List.getLast_mem hne
        exact le_of_lt (hpc.1 lb hmem)
      · exact ih lb hpc.2 hl b hb2

/-- Counterexample for C5 as stated: the JSON objects returned to the
caller by both modes of `main` contain no `skippedSignalCount` key. -/
theorem c5_counterexample :
    ¬ ("skippedSignalCount" ∈ manualOutputKeys ∨
       "skippedSignalCount" ∈ portfolioOutputKeys) := by
  decide

/-- C5 amended: in single-symbol mode, over a strictly ascending price
frame, a next-open signal keyed to the final date is never filled, and
the engine counts such signals — the count equals the number of next-open
signals for that date — but reports it only as a stderr warning
(modelled by the `Nat` beside the result); no `skippedSignalCount` field
is part of the value returned to the caller. -/
theorem c5_lastday_nextopen_skipped
    (df : List Bar) (signals : List Signal) (ic commission : Rat)
    (r : ManualResult) (k : Nat) (lb : Bar)
    (hpw : List.Pairwise (fun a b => a.date < b.date) df)
    (hlast : df.getLast? = some lb)
    (hrun : manual_backtest df signals ic commission = Except.ok (r, k)) :
    k = (specNextBatch signals lb.date).length ∧
    ∀ t ∈ r.trades,
      ¬ (t.execution_mode = ExecMode.next_open ∧ t.signal_date = lb.date) := by
  unfold manual_backtest at hrun
  cases hml : manualLoop commission (groupSignals signals).1 (groupSignals signals).2 df
      { cash := ic, shares := 0, trades := [] } none [] with
  | error e =>
    simp only [hml] at hrun
    exact absurd hrun (by simp)
  | ok res =>
    simp only [hml] at hrun
    injection hrun with hrun
    have hr : res.1.trades = r.trades := congrArg (fun p => p.1.trades) hrun
    have hk : (match res.2.1 with
        | some pv => (lookupGroup (groupSignals signals).2 pv.1).length
        | none => 0) = k := congrArg Prod.snd hrun
    have hprev : res.2.1 = some (lb.date, lb.close) :=
      manualLoop_prev commission (groupSignals signals).1 (groupSignals signals).2 df
        _ none [] res lb hml hlast
    constructor
    · rw [← hk, hprev]
      simp only []
      rw [(lookupGroup_groupSignals signals lb.date).2]
    · intro t ht hbad
      have htr : t ∈ res.1.trades := by
        rw [hr]
        exact ht
      exact manualLoop_no_lastday_nextopen commission (groupSignals signals).1
        (groupSignals signals).2 lb.date df _ none [] res hpw
        (pairwise_date_le_getLast df lb hpw hlast)
        (fun pd pc hpd => absurd hpd (by simp))
        (fun t ht hmode => absurd ht (List.not_mem_nil t)) hml t htr hbad.1 hbad.2

/-- Witness for C5 amended: one bar dated 1 and one next-open signal
dated 1 (the final date) yield a skipped count of exactly 1, the number
of next-open signals for that date. -/
theorem c5_lastday_nextopen_skipped_witness :
    (1 : Nat) = (specNextBatch
      [{ date := 1, type := SigType.v, amount := 100, execution := ExecMode.next_open }]
      1).length :=
  (c5_lastday_nextopen_skipped
    [{ date := 1, open_ := 10, high := 10, low := 10, close := 10 }]
    [{ date := 1, type := SigType.v, amount := 100, execution := ExecMode.next_open }]
    1000 0
    { trades := [],
      equityCurve := [{ date := 1, value := 1000, cash := 1000, shares := 0,
                        stock_value := 0 }],
      metrics := none } 1
    { date := 1, open_ := 10, high := 10, low := 10, close := 10 }
    (by simp)
    (by rfl)
    (by norm_num [manual_backtest, manualLoop, groupSignals, groupStep, addToGroup,
      aset, alookup, lookupGroup, calculate_metrics_from_data])).1

/-! ## Claim C1: daily-snapshot invariants -/

theorem execute_trade_nonneg (c : Rat) (sig : Signal) (ed : Nat) (ep : Rat) (sd : Nat)
    (sp : Rat) (em : ExecMode) (st : MState) (hep : 0 < ep) (hc : c ≤ 1)
    (h1 : 0 ≤ st.cash) (h2 : 0 ≤ st.shares) :
    0 ≤ (execute_trade c sig ed ep sd sp em st).cash ∧
      0 ≤ (execute_trade c sig ed ep sd sp em st).shares := by
  by_cases h0 : sig.amount = 0
  · simp only [execute_trade, if_pos h0]
    exact ⟨h1, h2⟩
  · cases hty : sig.type with
    | v =>
      by_cases hpos : sig.amount > 0
      · simp only [execute_trade, h0, if_false, hty, if_pos hpos]
        split_ifs with hg
        · refine ⟨?_, ?_⟩ <;> dsimp only
          · linarith [hg.1]
          · have := hg.2
            omega
        · exact ⟨h1, h2⟩
      · simp only [execute_trade, h0, if_false, hty, if_neg hpos]
        split_ifs with hs
        · refine ⟨?_, ?_⟩ <;> dsimp only
          · have hsr : (0 : Rat) ≤ ((min (pyInt (|sig.amount| / ep)) st.shares : Int) : Rat) := by
              exact_mod_cast le_of_lt hs
            have hpr : (0 : Rat) ≤
                ((min (pyInt (|sig.amount| / ep)) st.shares : Int) : Rat) * ep * (1 - c) :=
              mul_nonneg (mul_nonneg hsr (le_of_lt hep)) (by linarith)
            linarith
          · have := min_le_right (pyInt (|sig.amount| / ep)) st.shares
            omega
        · exact ⟨h1, h2⟩
    | a =>
      by_cases hpos : sig.amount > 0
      · simp only [execute_trade, h0, if_false, hty, if_pos hpos]
        split_ifs with hg
        · refine ⟨?_, ?_⟩ <;> dsimp only
          · linarith [hg.1]
          · have := hg.2
            omega
        · exact ⟨h1, h2⟩
      · simp only [execute_trade, h0, if_false, hty, if_neg hpos]
        split_ifs with hs
        · refine ⟨?_, ?_⟩ <;> dsimp only
          · have hsr : (0 : Rat) ≤ ((min (pyInt |sig.amount|) st.shares : Int) : Rat) := by
              exact_mod_cast le_of_lt hs
            have hpr : (0 : Rat) ≤
                ((min (pyInt |sig.amount|) st.shares : Int) : Rat) * ep * (1 - c) :=
              mul_nonneg (mul_nonneg hsr (le_of_lt hep)) (by linarith)
            linarith
          · have := min_le_right (pyInt |sig.amount|) st.shares
            omega
        · exact ⟨h1, h2⟩

theorem foldl_execute_trade_nonneg (c : Rat) (ed : Nat) (ep : Rat) (sd : Nat) (sp : Rat)
    (em : ExecMode) (hep : 0 < ep) (hc : c ≤ 1) :
    ∀ (batch : List Signal) (st : MState), 0 ≤ st.cash → 0 ≤ st.shares →
      0 ≤ (batch.foldl (fun s sig => execute_trade c sig ed ep sd sp em s) st).cash ∧
        0 ≤ (batch.foldl (fun s sig => execute_trade c sig ed ep sd sp em s) st).shares := by
  intro batch
  induction batch with
  | nil => intro st hS hH; exact ⟨hS, hH⟩
  | cons s0 rest ih =>
    intro st hS hH
    have h := execute_trade_nonneg c s0 ed ep sd sp em st hep hc hS hH
    exact ih _ h.1 h.2

theorem manualLoop_points_nonneg (commission : Rat) (sd nd : List (Nat × List Signal))
    (hc : commission ≤ 1) :
    ∀ (bars : List Bar) (st : MState) (prev : Option (Nat × Rat)) (eq : List EquityPoint)
      (res : MState × Option (Nat × Rat) × List EquityPoint),
      0 ≤ st.cash → 0 ≤ st.shares →
      (∀ pt ∈ eq, 0 ≤ pt.cash ∧ 0 ≤ pt.shares ∧ 0 ≤ pt.stock_value ∧
        |pt.cash + pt.stock_value - pt.value| ≤ 1 / 100) →
      manualLoop commission sd nd bars st prev eq = Except.ok res →
      ∀ pt ∈ res.2.2, 0 ≤ pt.cash ∧ 0 ≤ pt.shares ∧ 0 ≤ pt.stock_value ∧
        |pt.cash + pt.stock_value - pt.value| ≤ 1 / 100 := by
  intro bars
  induction bars with
  | nil =>
    intro st prev eq res hS hH hE h
    unfold manualLoop at h
    injection h with h
    rw [← h]
    exact hE
  | cons bar rest ih =>
    intro st prev eq res hS hH hE h
    unfold manualLoop at h
    by_cases hcl : bar.close ≤ 0
    · rw [if_pos hcl] at h
      exact absurd h (by simp)
    · rw [if_neg hcl] at h
      by_cases hop : bar.open_ ≤ 0
      · rw [if_pos hop] at h
        exact absurd h (by simp)
      · rw [if_neg hop] at h
        cases prev with
        | none =>
          have hstep := foldl_execute_trade_nonneg commission bar.date bar.close bar.date
            bar.close ExecMode.close (not_le.mp hcl) hc (lookupGroup sd bar.date) st hS hH
          refine ih _ _ _ res hstep.1 hstep.2 ?_ h
          intro pt hpt
          rcases List.mem_append.mp hpt with hin | hin
          · exact hE pt hin
          · rcases List.mem_singleton.mp hin with rfl
            refine ⟨hstep.1, hstep.2, ?_, ?_⟩
            · exact mul_nonneg (by exact_mod_cast hstep.2) (le_of_lt (not_le.mp hcl))
            · dsimp only
              rw [sub_self, abs_zero]
              norm_num
        | some pv =>
          have hst1 := foldl_execute_trade_nonneg commission bar.date bar.open_ pv.1 pv.2
            ExecMode.next_open (not_le.mp hop) hc (lookupGroup nd pv.1) st hS hH
          have hstep := foldl_execute_trade_nonneg commission bar.date bar.close bar.date
            bar.close ExecMode.close (not_le.mp hcl) hc (lookupGroup sd bar.date) _
            hst1.1 hst1.2
          refine ih _ _ _ res hstep.1 hstep.2 ?_ h
          intro pt hpt
          rcases List.mem_append.mp hpt with hin | hin
          · exact hE pt hin
          · rcases List.mem_singleton.mp hin with rfl
            refine ⟨hstep.1, hstep.2, ?_, ?_⟩
            · exact mul_nonneg (by exact_mod_cast hstep.2) (le_of_lt (not_le.mp hcl))
            · dsimp only
              rw [sub_self, abs_zero]
              norm_num

theorem valuePositions_ok_positions_nonneg (dm : List (String × List Bar)) (d : Nat) :
    ∀ (entries : List (String × Int)) (pv : Rat) (sv : List (String × Rat))
      (res : Rat × List (String × Rat)),
      valuePositions dm d entries pv sv = Except.ok res →
      ∀ e ∈ entries, 0 ≤ e.2 := by
  intro entries
  induction entries with
  | nil =>
    intro pv sv res h e he
    exact absurd he (List.not_mem_nil e)
  | cons hd tl ih =>
    intro pv sv res h e he
    obtain ⟨symbol, shares⟩ := hd
    unfold valuePositions at h
    by_cases hneg : shares < 0
    · rw [if_pos hneg] at h
      exact absurd h (by simp)
    · rw [if_neg hneg] at h
      rcases List.mem_cons.mp he with rfl | he2
      · exact not_lt.mp hneg
      · by_cases hpos : shares > 0
        · rw [if_pos hpos] at h
          cases hdm : alookup dm symbol with
          | none =>
            simp only [hdm] at h
            exact absurd h (by simp)
          | some df =>
            simp only [hdm] at h
            cases hfind : df.find? (fun b => b.date == d) with
            | some row =>
              simp only [hfind] at h
              split_ifs at h with hp1 hp2
              exact ih _ _ res h e he2
            | none =>
              simp only [hfind] at h
              cases hfil : df.filter (fun b => b.date < d) with
              | nil =>
                simp only [hfil] at h
                exact ih _ _ res h e he2
              | cons p ps =>
                simp only [hfil] at h
                split_ifs at h with hp1
                · exact ih _ _ res h e he2
                · exact ih _ _ res h e he2
        · rw [if_neg hpos] at h
          exact ih _ _ res h e he2

theorem pDay_point_good (dm : List (String × List Bar)) (ic c : Rat) (cons : Constraints)
    (sdG ndG : List ((Nat × String) × List PSignal)) (prev : Option Nat) (d : Nat)
    (st st2 : PState) (pt : PEquityPoint)
    (h : pDay dm ic c cons sdG ndG prev d st = Except.ok (st2, pt)) :
    0 ≤ pt.cash ∧ (∀ e ∈ pt.positions, 0 ≤ e.2) ∧ (∀ e ∈ pt.stock_values, 0 ≤ e.2) ∧
      |pt.cash + (pt.stock_values.map (fun p => p.2)).sum - pt.value| ≤ 1 / 100 := by
  unfold pDay at h
  cases prev with
  | none =>
    simp only [] at h
    cases hsd : execSameDayAll ic c cons sdG d dm st with
    | error e =>
      simp only [hsd] at h
      exact absurd h (by simp)
    | ok st1 =>
      simp only [hsd] at h
      cases hv : valuePositions dm d st1.positions st1.cash [] with
      | error e =>
        simp only [hv] at h
        exact absurd h (by simp)
      | ok pvsv =>
        simp only [hv] at h
        split_ifs at h with hq1 hq2 hq3
        injection h with h
        obtain rfl : _ = pt := congrArg Prod.snd h
        refine ⟨not_lt.mp hq1, ?_, ?_, not_lt.mp hq3⟩
        · exact valuePositions_ok_positions_nonneg dm d st1.positions st1.cash [] pvsv hv
        · intro e hee
          by_contra hneg
          exact hq2 (List.any_eq_true.mpr ⟨e, hee, decide_eq_true (not_le.mp hneg)⟩)
  | some pd =>
    simp only [] at h
    cases hnd : execNextDayAll ic c cons ndG pd d dm st with
    | error e =>
      simp only [hnd] at h
      exact absurd h (by simp)
    | ok st0 =>
      simp only [hnd] at h
      cases hsd : execSameDayAll ic c cons sdG d dm st0 with
      | error e =>
        simp only [hsd] at h
        exact absurd h (by simp)
      | ok st1 =>
        simp only [hsd] at h
        cases hv : valuePositions dm d st1.positions st1.cash [] with
        | error e =>
          simp only [hv] at h
          exact absurd h (by simp)
        | ok pvsv =>
          simp only [hv] at h
          split_ifs at h with hq1 hq2 hq3
          injection h with h
          obtain rfl : _ = pt := congrArg Prod.snd h
          refine ⟨not_lt.mp hq1, ?_, ?_, not_lt.mp hq3⟩
          · exact valuePositions_ok_positions_nonneg dm d st1.positions st1.cash [] pvsv hv
          · intro e hee
            by_contra hneg
            exact hq2 (List.any_eq_true.mpr ⟨e, hee, decide_eq_true (not_le.mp hneg)⟩)

theorem pLoop_points_good (dm : List (String × List Bar)) (ic c : Rat) (cons : Constraints)
    (sdG ndG : List ((Nat × String) × List PSignal)) :
    ∀ (dates : List Nat) (prev : Option Nat) (st : PState) (eq : List PEquityPoint)
      (res : PState × List PEquityPoint),
      (∀ pt ∈ eq, 0 ≤ pt.cash ∧ (∀ e ∈ pt.positions, 0 ≤ e.2) ∧
        (∀ e ∈ pt.stock_values, 0 ≤ e.2) ∧
        |pt.cash + (pt.stock_values.map (fun p => p.2)).sum - pt.value| ≤ 1 / 100) →
      pLoop dm ic c cons sdG ndG dates prev st eq = Except.ok res →
      ∀ pt ∈ res.2, 0 ≤ pt.cash ∧ (∀ e ∈ pt.positions, 0 ≤ e.2) ∧
        (∀ e ∈ pt.stock_values, 0 ≤ e.2) ∧
        |pt.cash + (pt.stock_values.map (fun p => p.2)).sum - pt.value| ≤ 1 / 100 := by
  intro dates
  induction dates with
  | nil =>
    intro prev st eq res hE h
    unfold pLoop at h
    injection h with h
    rw [← h]
    exact hE
  | cons d ds ih =>
    intro prev st eq res hE h
    unfold pLoop at h
    cases hd : pDay dm ic c cons sdG ndG prev d st with
    | error e =>
      simp only [hd] at h
      exact absurd h (by simp)
    | ok r =>
      simp only [hd] at h
      refine ih _ _ _ res ?_ h
      intro pt hpt
      rcases List.mem_append.mp hpt with hin | hin
      · exact hE pt hin
      · rcases List.mem_singleton.mp hin with rfl
        exact pDay_point_good dm ic c cons sdG ndG prev d st r.1 r.2 (by rw [hd])

/-- C1 counterexample: the claim asserts the snapshot invariants for
every completed run, but `manual_backtest` performs no end-of-day
validation at all: a run started from negative initial cash completes
without error and appends a snapshot with negative cash. -/
theorem c1_counterexample :
    manual_backtest [{ date := 1, open_ := 10, high := 10, low := 10, close := 10 }] []
        (-100) 0 =
      Except.ok
        ({ trades := [],
           equityCurve := [{ date := 1, value := -100, cash := -100, shares := 0,
                             stock_value := 0 }],
           metrics := none }, 0) ∧
    ¬ (0 ≤ ({ date := 1, value := -100, cash := -100, shares := 0,
              stock_value := 0 } : EquityPoint).cash) := by
  constructor
  · norm_num [manual_backtest, manualLoop, groupSignals, groupStep, addToGroup, aset,
      alookup, lookupGroup, calculate_metrics_from_data]
  · norm_num

/-- C1 amended: every daily snapshot of a completed run satisfies
cash ≥ 0, nonnegative share counts, nonnegative stock values, and
equity reconciliation within 0.01 — in single-symbol mode under the
preconditions that the initial cash is nonnegative and the commission
rate is at most 1 (the mode has no validations of its own, so the
invariants are maintained, not checked), and in portfolio mode
unconditionally (enforced by the end-of-day validation block). -/
theorem c1_snapshot_invariants
    (df : List Bar) (signals : List Signal) (ic commission : Rat)
    (r : ManualResult) (k : Nat)
    (dm : List (String × List Bar)) (psignals : List PSignal) (pic pcommission : Rat)
    (cons : Constraints) (pr : PResult)
    (hic : 0 ≤ ic) (hcomm : commission ≤ 1)
    (hm : manual_backtest df signals ic commission = Except.ok (r, k))
    (hp : portfolio_backtest dm psignals pic pcommission cons = Except.ok pr) :
    (∀ pt ∈ r.equityCurve, 0 ≤ pt.cash ∧ 0 ≤ pt.shares ∧ 0 ≤ pt.stock_value ∧
      |pt.cash + pt.stock_value - pt.value| ≤ 1 / 100) ∧
    (∀ pt ∈ pr.equityCurve, 0 ≤ pt.cash ∧ (∀ e ∈ pt.positions, 0 ≤ e.2) ∧
      (∀ e ∈ pt.stock_values, 0 ≤ e.2) ∧
      |pt.cash + (pt.stock_values.map (fun p => p.2)).sum - pt.value| ≤ 1 / 100) := by
  constructor
  · unfold manual_backtest at hm
    cases hml : manualLoop commission (groupSignals signals).1 (groupSignals signals).2 df
        { cash := ic, shares := 0, trades := [] } none [] with
    | error e =>
      simp only [hml] at hm
      exact absurd hm (by simp)
    | ok res =>
      simp only [hml] at hm
      injection hm with hm
      have hcurve : res.2.2 = r.equityCurve := congrArg (fun p => p.1.equityCurve) hm
      intro pt hpt
      rw [← hcurve] at hpt
      exact manualLoop_points_nonneg commission (groupSignals signals).1
        (groupSignals signals).2 hcomm df _ none [] res hic (le_refl (0 : Int))
        (fun q hq => absurd hq (List.not_mem_nil q)) hml pt hpt
  · unfold portfolio_backtest at hp
    cases hpl : pLoop dm pic pcommission cons (groupPSignals dm psignals).1
        (groupPSignals dm psignals).2 (allDates dm) none
        { cash := pic, positions := [], trades := [] } [] with
    | error e =>
      simp only [hpl] at hp
      exact absurd hp (by simp)
    | ok res =>
      simp only [hpl] at hp
      injection hp with hp
      have hcurve : res.2 = pr.equityCurve := congrArg PResult.equityCurve hp
      intro pt hpt
      rw [← hcurve] at hpt
      exact pLoop_points_good dm pic pcommission cons (groupPSignals dm psignals).1
        (groupPSignals dm psignals).2 (allDates dm) none _ [] res
        (fun q hq => absurd hq (List.not_mem_nil q)) hpl pt hpt

/-- Witness for C1 amended: a one-bar single-symbol run from cash 100
and a one-bar one-symbol portfolio run from cash 100 both complete, and
the theorem yields the cash-nonnegativity of the single snapshot. -/
theorem c1_snapshot_invariants_witness :
    (0 : Rat) ≤ 100 := by
  have h := c1_snapshot_invariants
    [{ date := 1, open_ := 10, high := 10, low := 10, close := 10 }] [] 100 0
    { trades := [],
      equityCurve := [{ date := 1, value := 100, cash := 100, shares := 0,
                        stock_value := 0 }],
      metrics := none } 0
    [("A", [{ date := 1, open_ := 10, high := 10, low := 10, close := 10 }])] [] 100 0
    { maxPositions := none, reserveCash := none }
    { trades := [],
      equityCurve := [{ date := 1, value := 100, cash := 100, positions := [],
                        stock_values := [("A", 0)] }],
      metrics := none }
    (by norm_num) (by norm_num)
    (by norm_num [manual_backtest, manualLoop, groupSignals, groupStep, addToGroup, aset,
      alookup, lookupGroup, calculate_metrics_from_data])
    (by norm_num [portfolio_backtest, pLoop, pDay, groupPSignals, pGroupStep, allDates,
      insertSortedU, execNextDayAll, execSameDayAll, valuePositions, zeroFill, efold,
      addToGroup, aset, alookup, calculate_metrics_from_data])
  exact (h.1 { date := 1, value := 100, cash := 100, shares := 0, stock_value := 0 }
    (by simp)).1

/-! ## Claim C4: scheduling semantics -/

theorem mem_insertSortedU (d : Nat) :
    ∀ (l : List Nat) (y : Nat), y ∈ insertSortedU d l ↔ y = d ∨ y ∈ l := by
  intro l
  induction l with
  | nil =>
    intro y
    simp [insertSortedU]
  | cons x xs ih =>
    intro y
    unfold insertSortedU
    split_ifs with h1 h2
    · simp only [List.mem_cons]
    · subst h2
      simp only [List.mem_cons]
      tauto
    · simp only [List.mem_cons, ih]
      tauto

theorem insertSortedU_sorted (d : Nat) :
    ∀ l : List Nat, List.Sorted (fun a b => a < b) l →
      List.Sorted (fun a b => a < b) (insertSortedU d l) := by
  intro l
  induction l with
  | nil =>
    intro _
    simp [insertSortedU]
  | cons x xs ih =>
    intro h
    rw [List.sorted_cons] at h
    unfold insertSortedU
    split_ifs with h1 h2
    · rw [List.sorted_cons]
      refine ⟨?_, ?_⟩
      · intro b hb
        rcases List.mem_cons.mp hb with rfl | hb2
        · exact h1
        · exact lt_trans h1 (h.1 b hb2)
      · rw [List.sorted_cons]
        exact h
    · rw [List.sorted_cons]
      exact h
    · rw [List.sorted_cons]
      refine ⟨?_, ih h.2⟩
      intro b hb
      rcases (mem_insertSortedU d xs b).mp hb with rfl | hb2
      · omega
      · exact h.1 b hb2

theorem foldl_insertSortedU_sorted :
    ∀ (bars : List Bar) (acc : List Nat),
      List.Sorted (fun a b => a < b) acc →
      List.Sorted (fun a b => a < b)
        (bars.foldl (fun a b => insertSortedU b.date a) acc) := by
  intro bars
  induction bars with
  | nil => intro acc h; exact h
  | cons b rest ih => intro acc h; exact ih _ (insertSortedU_sorted b.date acc h)

theorem allDates_sorted (dm : List (String × List Bar)) :
    List.Sorted (fun a b => a < b) (allDates dm) := by
  unfold allDates
  suffices h : ∀ (l : List (String × List Bar)) (acc : List Nat),
      List.Sorted (fun a b => a < b) acc →
      List.Sorted (fun a b => a < b)
        (l.foldl (fun acc p => p.2.foldl (fun a b => insertSortedU b.date a) acc) acc) by
    exact h dm [] List.sorted_nil
  intro l
  induction l with
  | nil => intro acc h; exact h
  | cons p rest ih => intro acc h; exact ih _ (foldl_insertSortedU_sorted p.2 acc h)

/-- Specification-side day loop of single-symbol mode, transcribed from
the spec wording: for each bar, validate the prices, execute the
previous date's next-open signals — read in input order straight off the
signal list — at today's open with the previous close as reference
price, then today's same-day signals at today's close with that close as
reference price, then record the snapshot. -/
def spec_manualLoop (signals : List Signal) (commission : Rat) :
    List Bar → MState → Option (Nat × Rat) → List EquityPoint →
    Except String (MState × Option (Nat × Rat) × List EquityPoint)
  | [], st, prev, eq => Except.ok (st, prev, eq)
  | bar :: rest, st, prev, eq =>
    if bar.close ≤ 0 then Except.error errInvalidClose
    else if bar.open_ ≤ 0 then Except.error errInvalidOpen
    else
      let st1 :=
        match prev with
        | some pv =>
          (specNextBatch signals pv.1).foldl
            (fun s sig =>
              execute_trade commission sig bar.date bar.open_ pv.1 pv.2
                ExecMode.next_open s)
            st
        | none => st
      let st2 :=
        (specSameBatch signals bar.date).foldl
          (fun s sig =>
            execute_trade commission sig bar.date bar.close bar.date bar.close
              ExecMode.close s)
          st1
      let portfolio_value := st2.cash + (st2.shares : Rat) * bar.close
      spec_manualLoop signals commission rest st2 (some (bar.date, bar.close))
        (eq ++ [{ date := bar.date, value := portfolio_value, cash := st2.cash,
                  shares := st2.shares,
                  stock_value := (st2.shares : Rat) * bar.close }])

/-- Specification-side single-symbol engine: the spec day loop over the
frame, with the skipped count read off the signal list. -/
def spec_manual_backtest (df : List Bar) (signals : List Signal)
    (initial_cash commission : Rat) : Except String (ManualResult × Nat) :=
  match spec_manualLoop signals commission df
      { cash := initial_cash, shares := 0, trades := [] } none [] with
  | Except.error e => Except.error e
  | Except.ok r =>
    let skipped :=
      match r.2.1 with
      | some pv => (specNextBatch signals pv.1).length
      | none => 0
    Except.ok
      ({ trades := r.1.trades
         equityCurve := r.2.2
         metrics := calculate_metrics_from_data (r.2.2.map (fun p => p.value))
           r.1.trades initial_cash }, skipped)

theorem manualLoop_eq_spec (signals : List Signal) (commission : Rat) :
    ∀ (bars : List Bar) (st : MState) (prev : Option (Nat × Rat)) (eq : List EquityPoint),
      manualLoop commission (groupSignals signals).1 (groupSignals signals).2 bars st prev eq =
        spec_manualLoop signals commission bars st prev eq := by
  intro bars
  induction bars with
  | nil => intro st prev eq; rfl
  | cons bar rest ih =>
    intro st prev eq
    unfold manualLoop spec_manualLoop
    dsimp only
    by_cases hcl : bar.close ≤ 0
    · rw [if_pos hcl, if_pos hcl]
    · rw [if_neg hcl, if_neg hcl]
      by_cases hop : bar.open_ ≤ 0
      · rw [if_pos hop, if_pos hop]
      · rw [if_neg hop, if_neg hop]
        cases prev with
        | none =>
          dsimp only
          rw [(lookupGroup_groupSignals signals bar.date).1]
          exact ih _ _ _
        | some pv =>
          dsimp only
          rw [(lookupGroup_groupSignals signals bar.date).1,
            (lookupGroup_groupSignals signals pv.1).2]
          exact ih _ _ _

theorem manual_backtest_eq_spec (df : List Bar) (signals : List Signal) (ic c : Rat) :
    manual_backtest df signals ic c = spec_manual_backtest df signals ic c := by
  unfold manual_backtest spec_manual_backtest
  dsimp only
  rw [manualLoop_eq_spec]
  cases hr : spec_manualLoop signals c df { cash := ic, shares := 0, trades := [] } none [] with
  | error e => simp only [hr]
  | ok r =>
    simp only [hr]
    cases hprev : r.2.1 with
    | none => simp only [hprev]
    | some pv =>
      simp only [hprev]
      rw [(lookupGroup_groupSignals signals pv.1).2]

/-- Specification-side next-open execution pass of a portfolio day: for
each symbol in data-map order, the batch is read straight off the signal
list in input order; when the batch is empty nothing at all happens for
that symbol, otherwise the signals execute at today's open against the
cumulatively updated state, with the symbol's previous-date close as
reference price when such a bar exists and today's open otherwise. -/
def specExecNextDayAll (dm0 : List (String × List Bar)) (signals : List PSignal)
    (initial_cash commission : Rat) (constraints : Constraints) (pd current_date : Nat) :
    List (String × List Bar) → PState → Except String PState
  | [], st => Except.ok st
  | (symbol, df) :: rest, st =>
    if specPNextBatch dm0 signals pd symbol = [] then
      specExecNextDayAll dm0 signals initial_cash commission constraints pd current_date rest st
    else
      match df.find? (fun b => b.date == current_date) with
      | none =>
        specExecNextDayAll dm0 signals initial_cash commission constraints pd current_date rest st
      | some row =>
        let execution_price := row.open_
        if execution_price ≤ 0 then Except.error errPOpen
        else
          let signal_price :=
            match df.find? (fun b => b.date == pd) with
            | some prow => prow.close
            | none => execution_price
          match efold
              (fun s sig =>
                p_execute_trade initial_cash commission constraints sig symbol
                  current_date execution_price pd signal_price ExecMode.next_open s)
              st (specPNextBatch dm0 signals pd symbol) with
          | Except.error e => Except.error e
          | Except.ok st2 =>
            specExecNextDayAll dm0 signals initial_cash commission constraints pd current_date
              rest st2

/-- Specification-side same-day execution pass of a portfolio day: the
batch for (today, symbol) is read straight off the signal list in input
order and executes at today's close, which is also its own reference
price. -/
def specExecSameDayAll (dm0 : List (String × List Bar)) (signals : List PSignal)
    (initial_cash commission : Rat) (constraints : Constraints) (current_date : Nat) :
    List (String × List Bar) → PState → Except String PState
  | [], st => Except.ok st
  | (symbol, df) :: rest, st =>
    if specPSameBatch dm0 signals current_date symbol = [] then
      specExecSameDayAll dm0 signals initial_cash commission constraints current_date rest st
    else
      match df.find? (fun b => b.date == current_date) with
      | none =>
        specExecSameDayAll dm0 signals initial_cash commission constraints current_date rest st
      | some row =>
        let execution_price := row.close
        if execution_price ≤ 0 then Except.error errPClose
        else
          match efold
              (fun s sig =>
                p_execute_trade initial_cash commission constraints sig symbol
                  current_date execution_price current_date execution_price
                  ExecMode.close s)
              st (specPSameBatch dm0 signals current_date symbol) with
          | Except.error e => Except.error e
          | Except.ok st2 =>
            specExecSameDayAll dm0 signals initial_cash commission constraints current_date
              rest st2

theorem execNextDayAll_eq_spec (dm0 : List (String × List Bar)) (signals : List PSignal)
    (ic c : Rat) (cons : Constraints) (pd d : Nat) :
    ∀ (lst : List (String × List Bar)) (st : PState),
      execNextDayAll ic c cons (groupPSignals dm0 signals).2 pd d lst st =
        specExecNextDayAll dm0 signals ic c cons pd d lst st := by
  intro lst
  induction lst with
  | nil => intro st; rfl
  | cons p rest ih =>
    intro st
    obtain ⟨symbol, df⟩ := p
    unfold execNextDayAll specExecNextDayAll
    dsimp only
    cases halk : alookup (groupPSignals dm0 signals).2 (pd, symbol) with
    | none =>
      have hempty : specPNextBatch dm0 signals pd symbol = [] := by
        have h2 := (lookupGroup_groupPSignals dm0 signals pd symbol).2
        rw [lookupGroup, halk] at h2
        exact h2.symm
      rw [if_pos hempty]
      exact ih st
    | some b =>
      have hbatch : specPNextBatch dm0 signals pd symbol = b := by
        have h2 := (lookupGroup_groupPSignals dm0 signals pd symbol).2
        rw [lookupGroup, halk] at h2
        exact h2.symm
      have hne : b ≠ [] := (groupPSignals_ne_nil dm0 signals).2 (pd, symbol) b halk
      rw [hbatch, if_neg hne]
      dsimp only
      cases hfind : df.find? (fun x => x.date == d) with
      | none =>
        simp only [hfind]
        exact ih st
      | some row =>
        simp only [hfind]
        by_cases hpr : row.open_ ≤ 0
        · rw [if_pos hpr, if_pos hpr]
        · rw [if_neg hpr, if_neg hpr]
          cases hef : efold
              (fun s sig =>
                p_execute_trade ic c cons sig symbol d row.open_ pd
                  (match df.find? (fun x => x.date == pd) with
                   | some prow => prow.close
                   | none => row.open_)
                  ExecMode.next_open s)
              st b with
          | error e => simp only [hef]
          | ok st2 =>
            simp only [hef]
            exact ih st2

theorem execSameDayAll_eq_spec (dm0 : List (String × List Bar)) (signals : List PSignal)
    (ic c : Rat) (cons : Constraints) (d : Nat) :
    ∀ (lst : List (String × List Bar)) (st : PState),
      execSameDayAll ic c cons (groupPSignals dm0 signals).1 d lst st =
        specExecSameDayAll dm0 signals ic c cons d lst st := by
  intro lst
  induction lst with
  | nil => intro st; rfl
  | cons p rest ih =>
    intro st
    obtain ⟨symbol, df⟩ := p
    unfold execSameDayAll specExecSameDayAll
    dsimp only
    cases halk : alookup (groupPSignals dm0 signals).1 (d, symbol) with
    | none =>
      have hempty : specPSameBatch dm0 signals d symbol = [] := by
        have h2 := (lookupGroup_groupPSignals dm0 signals d symbol).1
        rw [lookupGroup, halk] at h2
        exact h2.symm
      rw [if_pos hempty]
      exact ih st
    | some b =>
      have hbatch : specPSameBatch dm0 signals d symbol = b := by
        have h2 := (lookupGroup_groupPSignals dm0 signals d symbol).1
        rw [lookupGroup, halk] at h2
        exact h2.symm
      have hne : b ≠ [] := (groupPSignals_ne_nil dm0 signals).1 (d, symbol) b halk
      rw [hbatch, if_neg hne]
      dsimp only
      cases hfind : df.find? (fun x => x.date == d) with
      | none =>
        simp only [hfind]
        exact ih st
      | some row =>
        simp only [hfind]
        by_cases hpr : row.close ≤ 0
        · rw [if_pos hpr, if_pos hpr]
        · rw [if_neg hpr, if_neg hpr]
          cases hef : efold
              (fun s sig =>
                p_execute_trade ic c cons sig symbol d row.close d row.close
                  ExecMode.close s)
              st b with
          | error e => simp only [hef]
          | ok st2 =>
            simp only [hef]
            exact ih st2

/-- Specification-side portfolio day, transcribed from the spec wording:
(1) if there was a previous date, execute its next-open signals at
today's open; (2) execute today's same-day signals at today's close;
(3) value the positions and record the snapshot, with the end-of-day
validations. -/
def spec_pDay (dm : List (String × List Bar)) (signals : List PSignal)
    (initial_cash commission : Rat) (constraints : Constraints)
    (prev : Option Nat) (current_date : Nat) (st : PState) :
    Except String (PState × PEquityPoint) :=
  let step1 : Except String PState :=
    match prev with
    | some pd =>
      specExecNextDayAll dm signals initial_cash commission constraints pd current_date dm st
    | none => Except.ok st
  match step1 with
  | Except.error e => Except.error e
  | Except.ok st1 =>
    match specExecSameDayAll dm signals initial_cash commission constraints current_date
        dm st1 with
    | Except.error e => Except.error e
    | Except.ok st2 =>
      match valuePositions dm current_date st2.positions st2.cash [] with
      | Except.error e => Except.error e
      | Except.ok pvsv =>
        let stock_values := zeroFill dm current_date pvsv.2
        let portfolio_value := pvsv.1
        let pt : PEquityPoint :=
          { date := current_date, value := portfolio_value, cash := st2.cash,
            positions := st2.positions, stock_values := stock_values }
        if st2.cash < 0 then Except.error errNegativeCash
        else if stock_values.any (fun p => p.2 < 0) then Except.error errNegativeStockValue
        else if |st2.cash + (stock_values.map (fun p => p.2)).sum - portfolio_value| > 1 / 100
          then Except.error errReconcile
        else Except.ok (st2, pt)

theorem pDay_eq_spec (dm : List (String × List Bar)) (signals : List PSignal)
    (ic c : Rat) (cons : Constraints) (prev : Option Nat) (d : Nat) (st : PState) :
    pDay dm ic c cons (groupPSignals dm signals).1 (groupPSignals dm signals).2 prev d st =
      spec_pDay dm signals ic c cons prev d st := by
  unfold pDay spec_pDay
  dsimp only
  cases prev with
  | none =>
    dsimp only
    rw [execSameDayAll_eq_spec]
  | some pd =>
    dsimp only
    rw [execNextDayAll_eq_spec]
    cases hx : specExecNextDayAll dm signals ic c cons pd d dm st with
    | error e => simp only [hx]
    | ok st1 =>
      simp only [hx]
      rw [execSameDayAll_eq_spec]

/-- Specification-side day loop of portfolio mode over the master
calendar, carrying the previous processed date. -/
def spec_pLoop (dm : List (String × List Bar)) (signals : List PSignal)
    (initial_cash commission : Rat) (constraints : Constraints) :
    List Nat → Option Nat → PState → List PEquityPoint →
    Except String (PState × List PEquityPoint)
  | [], _, st, eq => Except.ok (st, eq)
  | d :: ds, prev, st, eq =>
    match spec_pDay dm signals initial_cash commission constraints prev d st with
    | Except.error e => Except.error e
    | Except.ok r =>
      spec_pLoop dm signals initial_cash commission constraints ds (some d) r.1 (eq ++ [r.2])

theorem pLoop_eq_spec (dm : List (String × List Bar)) (signals : List PSignal)
    (ic c : Rat) (cons : Constraints) :
    ∀ (dates : List Nat) (prev : Option Nat) (st : PState) (eq : List PEquityPoint),
      pLoop dm ic c cons (groupPSignals dm signals).1 (groupPSignals dm signals).2
          dates prev st eq =
        spec_pLoop dm signals ic c cons dates prev st eq := by
  intro dates
  induction dates with
  | nil => intro prev st eq; rfl
  | cons d ds ih =>
    intro prev st eq
    unfold pLoop spec_pLoop
    rw [pDay_eq_spec]
    cases hd : spec_pDay dm signals ic c cons prev d st with
    | error e => simp only [hd]
    | ok r =>
      simp only [hd]
      exact ih _ _ _

/-- Specification-side portfolio engine: the spec day loop over the
sorted master calendar. -/
def spec_portfolio_backtest (dm : List (String × List Bar)) (signals : List PSignal)
    (initial_cash commission : Rat) (constraints : Constraints) :
    Except String PResult :=
  match spec_pLoop dm signals initial_cash commission constraints (allDates dm) none
      { cash := initial_cash, positions := [], trades := [] } [] with
  | Except.error e => Except.error e
  | Except.ok r =>
    Except.ok
      { trades := r.1.trades
        equityCurve := r.2
        metrics := calculate_metrics_from_data (r.2.map (fun p => p.value))
          r.1.trades initial_cash }

theorem portfolio_backtest_eq_spec (dm : List (String × List Bar)) (signals : List PSignal)
    (ic c : Rat) (cons : Constraints) :
    portfolio_backtest dm signals ic c cons = spec_portfolio_backtest dm signals ic c cons := by
  unfold portfolio_backtest spec_portfolio_backtest
  dsimp only
  rw [pLoop_eq_spec]

/-- Data map of the C4 counterexample: symbol A has no bar on date 2,
symbol B trades on all three dates. -/
def c4dm : List (String × List Bar) :=
  [("A", [{ date := 1, open_ := 10, high := 10, low := 10, close := 10 },
          { date := 3, open_ := 77, high := 80, low := 70, close := 80 }]),
   ("B", [{ date := 1, open_ := 5, high := 5, low := 5, close := 5 },
          { date := 2, open_ := 6, high := 6, low := 6, close := 6 },
          { date := 3, open_ := 7, high := 7, low := 7, close := 7 }])]

/-- C4 counterexample: the claim says a next-open fill records the
previous trading day's close as its reference price, but when the
traded symbol has no bar at the previous date the code falls back to
the current day's open: the only fill of this run records
signal_price 77 — day 3's open for A — although no close anywhere in
the data equals 77 (A has no day-2 bar; the previous closes are 10, 5
and 6). -/
theorem c4_counterexample :
    (portfolio_backtest c4dm
        [{ date := 2, symbol := "A", type := SigType.v, amount := 100,
           execution := ExecMode.next_open }] 1000 0
        { maxPositions := none, reserveCash := none }).map (fun r => r.trades) =
      Except.ok [{ signal_date := 2, execution_date := 3, symbol := "A", type := Side.buy,
                   price := 77, signal_price := 77, size := 1, value := 77, commission := 0,
                   execution_mode := ExecMode.next_open }] ∧
    ∀ p ∈ c4dm, ∀ b ∈ p.2, b.close ≠ 77 := by
  constructor
  · norm_num [portfolio_backtest, pLoop, pDay, groupPSignals, pGroupStep, addToGroup,
      allDates, insertSortedU, execNextDayAll, execSameDayAll, efold, p_execute_trade,
      maxPositionsBlocks, reservePrecheckBlocks, adjustForReserve, truthyMax, truthyReserve,
      settleBuy, settleSell, pyInt, valuePositions, zeroFill, aset, aget, alookup,
      lookupGroup, List.find?, Except.map, c4dm,
      show ("A" : String) ≠ "B" by decide, show ("B" : String) ≠ "A" by decide,
      show ((1 : Nat) == 1) = true from rfl, show ((1 : Nat) == 2) = false from rfl,
      show ((1 : Nat) == 3) = false from rfl, show ((2 : Nat) == 1) = false from rfl,
      show ((2 : Nat) == 2) = true from rfl, show ((2 : Nat) == 3) = false from rfl,
      show ((3 : Nat) == 1) = false from rfl, show ((3 : Nat) == 2) = false from rfl,
      show ((3 : Nat) == 3) = true from rfl]
  · norm_num [c4dm]

/-- C4 amended: dates are processed in ascending order and each day runs
the previous date's next-open batch at today's open before today's
same-day batch at today's close, then records the snapshot; batches are
exactly the input-order runs of signals for that (date, symbol, timing),
executed against the cumulatively updated state; the reference price of
a next-open fill is the previous date's close in single-symbol mode, and
in portfolio mode the symbol's own close at the previous calendar date
when such a bar exists, today's open otherwise — stated as the equality
of both engines with their specification-side transcriptions, plus
sortedness of the portfolio master calendar. -/
theorem c4_scheduling :
    (∀ (df : List Bar) (signals : List Signal) (ic commission : Rat),
      manual_backtest df signals ic commission =
        spec_manual_backtest df signals ic commission) ∧
    (∀ dm : List (String × List Bar), List.Sorted (fun a b => a < b) (allDates dm)) ∧
    (∀ (dm : List (String × List Bar)) (signals : List PSignal) (ic commission : Rat)
        (cons : Constraints),
      portfolio_backtest dm signals ic commission cons =
        spec_portfolio_backtest dm signals ic commission cons) :=
  ⟨manual_backtest_eq_spec, allDates_sorted, portfolio_backtest_eq_spec⟩

end StockViewer
